import Mathlib

/-!
# podman_container_sizes: a shallow embedding and its checked properties

The program asks `podman ps --size --format json` for the containers, sorts
the decoded records and prints a table with per-container and aggregate
sizes.  This file embeds `podman_cont_sizes.go` (`getContainerName`,
`formatSize`, `sortContainers`, `printTable`, `getContainers`, `printJSON`,
`main`) and the report loop of its minimal variant
`podman_container_sizes.go`, together with the pieces of the Go language and
standard library they rest on:

* `int64` values are mathematical integers, and every `int64` addition or
  multiplication of the source is followed by `wrap64` (two's complement
  wrap-around, which is what Go specifies for signed overflow); the counter
  `exp` of `formatSize`, an `int` that takes at most a few steps, is a natural
  number;
* a Go string is the text it holds, and `<` on strings compares the UTF-8
  bytes of the two texts (`stringLess`);
* `float64(x)` for an integer `x` is the integer value of the nearest IEEE-754
  double (53-bit significand, ties to even), see `float64OfInt`;
* `%.1f` is the correctly rounded one-digit rendering of that double (ties to
  even, as `strconv` does), see `fmtF1`;
* `sort.Slice` is a parameter constrained by its documented contract
  (`SortSliceContract`); `goSortSlice`, the insertion sort the library runs on
  short slices, is an executable instance of it;
* standard output is the list of chunks written by the successive `fmt` calls;
* the external command, the reader of JSON text and the JSON encoder are
  parameters (`run`, `parse`, `encode`); the decoding of a JSON value into
  `[]PodmanContainer` follows `encoding/json` (`jsonUnmarshal`): keys are
  matched up to case, `null` and missing keys leave the zero value, a value of
  the wrong kind is an error.
-/

namespace PodmanSizes

/-! ## Data model -/

/-- The anonymous `Size` struct of `PodmanContainer` (two `int64` fields). -/
structure SizeInfo where
  RootFsSize : Int
  RwSize : Int
  deriving DecidableEq, Repr

/-- The record type `PodmanContainer` decoded from the runtime's JSON output. -/
structure PodmanContainer where
  ID : String
  Names : List String
  Image : String
  Status : String
  Size : SizeInfo
  deriving DecidableEq, Repr

/-- The range of Go's `int64`. -/
def isInt64 (x : Int) : Prop := -2 ^ 63 ≤ x ∧ x < 2 ^ 63

instance (x : Int) : Decidable (isInt64 x) := by
  unfold isInt64; infer_instance

/-- Two's complement wrap-around of an integer into the `int64` range: the
value Go stores after an `int64` operation whose exact result is `x`. -/
def wrap64 (x : Int) : Int := (x + 2 ^ 63) % 2 ^ 64 - 2 ^ 63

/-! ## getContainerName -/

/-- The function `getContainerName`: the first name, or the placeholder. -/
def getContainerName (c : PodmanContainer) : String :=
  match c.Names with
  | n :: _ => n
  | [] => "<unnamed>"

/-! ## formatSize -/

/-- The constant `unit` of `formatSize`. -/
def unit : Int := 1024

/-- The `for n := bytes / unit; n >= unit; n /= unit` loop of `formatSize`,
started from the state `(n, div, exp)`; every iteration multiplies `div` by
`unit` (an `int64` product) and increments `exp`.  The first argument bounds
the number of iterations; `formatSize` passes a bound the loop never reaches
(`scaleLoop_spec`). -/
def scaleLoop : Nat → Int → Int → Nat → Int × Nat
  | 0, _, div, exp => (div, exp)
  | fuel + 1, n, div, exp =>
    if n ≥ unit then scaleLoop fuel (Int.tdiv n unit) (wrap64 (div * unit)) (exp + 1)
    else (div, exp)

/-- Number of low bits a natural number loses when it is cut to a 53-bit
significand: the least `s` with `m < 2 ^ (53 + s)` (bounded by the fuel). -/
def sigShift : Nat → Nat → Nat
  | 0, _ => 0
  | fuel + 1, m => if m < 2 ^ 53 then 0 else sigShift fuel (m / 2) + 1

/-- Round a natural number to the nearest multiple of `2 ^ s`, ties to the
even multiple. -/
def roundToEven (m s : Nat) : Nat :=
  let q := m / 2 ^ s
  let r := m % 2 ^ s
  if 2 * r > 2 ^ s ∨ (2 * r = 2 ^ s ∧ q % 2 = 1) then (q + 1) * 2 ^ s else q * 2 ^ s

/-- The conversion `float64(n)` of an integer: the exact value of the nearest
double, which is `n` itself when `|n| < 2 ^ 53` and otherwise `n` rounded to 53
significant bits, ties to even (`float64OfInt_representable`,
`roundToEven_err`). -/
def float64OfInt (n : Int) : Int :=
  n.sign * (roundToEven n.natAbs (sigShift n.natAbs n.natAbs) : Nat)

/-- The number of tenths printed by `%.1f` for the non-negative quotient
`num / den`: the nearest integer to `10 * num / den`, ties to even. -/
def roundTenths (num den : Nat) : Nat :=
  let q := 10 * num / den
  let r := 10 * num % den
  if 2 * r > den ∨ (2 * r = den ∧ q % 2 = 1) then q + 1 else q

/-- The verb `%.1f` applied to the non-negative quotient `num / den`: integer
part, a point, exactly one fractional digit. -/
def fmtF1 (num den : Nat) : String :=
  Nat.repr (roundTenths num den / 10) ++ "." ++ Nat.repr (roundTenths num den % 10)

/-- The verb `%d` applied to an `int64`. -/
def fmtD (n : Int) : String :=
  if n < 0 then "-" ++ Nat.repr n.natAbs else Nat.repr n.natAbs

/-- The function `formatSize`.  `none` stands for the run-time panic of an
out-of-range index into `"KMGTPE"`.  The quotient
`float64(bytes) / float64(div)` is exact, `div` being a power of two, so the
printed digits are those of `float64OfInt bytes / div`. -/
def formatSize (bytes : Int) : Option String :=
  if bytes < unit then some (fmtD bytes ++ " B")
  else
    let r := scaleLoop bytes.toNat (Int.tdiv bytes unit) unit 0
    match "KMGTPE".toList[r.2]? with
    | none => none
    | some c =>
      some (fmtF1 (float64OfInt bytes).toNat r.1.toNat ++ " " ++ String.singleton c ++ "B")


/-! ## sortContainers -/

/-- The bytes of a Go string holding the text `s` (its UTF-8 encoding). -/
def utf8Bytes (s : String) : List Nat :=
  s.toList.flatMap fun c => (String.utf8EncodeChar c).map UInt8.toNat

/-- Lexicographic comparison of two byte sequences; a proper prefix is
smaller. -/
def bytesLess : List Nat → List Nat → Bool
  | [], [] => false
  | [], _ :: _ => true
  | _ :: _, [] => false
  | a :: as, b :: bs => if a < b then true else if b < a then false else bytesLess as bs

/-- Go's operator `<` on strings: byte-wise lexicographic comparison. -/
def stringLess (a b : String) : Bool := bytesLess (utf8Bytes a) (utf8Bytes b)

/-- The `less` closure of the `"size"` case: the two `int64` sums compared
with `>`. -/
def lessBySize (ci cj : PodmanContainer) : Bool :=
  decide (wrap64 (ci.Size.RootFsSize + ci.Size.RwSize) >
    wrap64 (cj.Size.RootFsSize + cj.Size.RwSize))

/-- The `less` closure of the `"rwsize"` case. -/
def lessByRwSize (ci cj : PodmanContainer) : Bool :=
  decide (ci.Size.RwSize > cj.Size.RwSize)

/-- The `less` closure of the `default` case. -/
def lessByName (ci cj : PodmanContainer) : Bool :=
  stringLess (getContainerName ci) (getContainerName cj)

/-- The function `sortContainers`; `sortSlice` stands for `sort.Slice` and the
returned list for the slice after the in-place sort. -/
def sortContainers
    (sortSlice : (PodmanContainer → PodmanContainer → Bool) →
      List PodmanContainer → List PodmanContainer)
    (containers : List PodmanContainer) (sortBy : String) : List PodmanContainer :=
  if sortBy = "size" then sortSlice lessBySize containers
  else if sortBy = "rwsize" then sortSlice lessByRwSize containers
  else sortSlice lessByName containers

/-- What package `sort` asks of a `less` function: a strict weak ordering. -/
structure StrictWeakOrder {α : Type} (less : α → α → Bool) : Prop where
  irrefl : ∀ a, less a a = false
  trans : ∀ a b c, less a b = true → less b c = true → less a c = true
  negTrans : ∀ a b c, less a b = false → less b c = false → less a c = false

/-- The documented contract of `sort.Slice`: the slice is rearranged by swaps
only, whatever `less` is, and when `less` is a strict weak ordering no element
is smaller than one placed before it.  Nothing is promised about the relative
order of equal elements. -/
structure SortSliceContract {α : Type}
    (sortSlice : (α → α → Bool) → List α → List α) : Prop where
  perm : ∀ less xs, (sortSlice less xs).Perm xs
  sorted : ∀ less, StrictWeakOrder less →
    ∀ xs, (sortSlice less xs).Pairwise fun a b => less b a = false

/-- Inner loop of the library's `insertionSortLessFunc`
(`for j := i; j > a && less(j, j-1); j-- { swap(j, j-1) }`): `x` is the
element at `j`, the list holds the elements to its left, nearest first. -/
def sinkLeft {α : Type} (less : α → α → Bool) (x : α) : List α → List α
  | [] => [x]
  | y :: ys => if less x y then y :: sinkLeft less x ys else x :: y :: ys

/-- Outer loop of `insertionSortLessFunc`: `done` is the part of the slice
left of `i` (nearest first), `rest` the part from `i` on. -/
def insertionSortLoop {α : Type} (less : α → α → Bool) : List α → List α → List α
  | done, [] => done.reverse
  | done, x :: rest => insertionSortLoop less (sinkLeft less x done) rest

/-- An executable `sort.Slice`: the library's `insertionSortLessFunc`, the
procedure `sort.Slice` applies to short slices. -/
def goSortSlice {α : Type} (less : α → α → Bool) (xs : List α) : List α :=
  insertionSortLoop less [] xs

/-! ## printTable -/

/-- The verb `%-Ns`: the text padded with blanks on the right up to `w`
characters, never cut. -/
def padRight (s : String) (w : Nat) : String :=
  s ++ String.mk (List.replicate (w - s.length) ' ')

/-- One `Printf("%-20s %-30s %-12s %-12s %s\n", ...)` line of `printTable`. -/
def tableLine (c1 c2 c3 c4 c5 : String) : String :=
  padRight c1 20 ++ " " ++ padRight c2 30 ++ " " ++ padRight c3 12 ++ " " ++
    padRight c4 12 ++ " " ++ c5 ++ "\n"

/-- The `for _, c := range containers` loop of `printTable`, in the state
(chunks written so far, `totalRw`, `totalRoot`). -/
def printRows : List PodmanContainer → List String → Int → Int →
    Option (List String × Int × Int)
  | [], out, totalRw, totalRoot => some (out, totalRw, totalRoot)
  | c :: cs, out, totalRw, totalRoot =>
    match formatSize c.Size.RwSize, formatSize c.Size.RootFsSize,
      formatSize (wrap64 (c.Size.RwSize + c.Size.RootFsSize)) with
    | some rwSize, some rootSize, some totalSize =>
      printRows cs
        (out ++ [tableLine (getContainerName c) c.Image rwSize rootSize totalSize])
        (wrap64 (totalRw + c.Size.RwSize)) (wrap64 (totalRoot + c.Size.RootFsSize))
    | _, _, _ => none

/-- The function `printTable`: the chunks it writes to standard output, one
per `fmt` call, or `none` if a `formatSize` call panics. -/
def printTable (containers : List PodmanContainer) : Option (List String) :=
  match printRows containers
    [tableLine "NAME" "IMAGE" "RW SIZE" "ROOT SIZE" "TOTAL SIZE",
      String.mk (List.replicate 90 '-') ++ "\n"] 0 0 with
  | none => none
  | some (out, totalRw, totalRoot) =>
    match formatSize totalRw, formatSize totalRoot,
      formatSize (wrap64 (totalRw + totalRoot)) with
    | some rw, some root, some combined =>
      some (out ++ ["\nTOTAL:\n", "Read/Write: " ++ rw ++ "\n",
        "Root FS:    " ++ root ++ "\n", "Combined:   " ++ combined ++ "\n"])
    | _, _, _ => none

/-! ## Sample inputs -/

/-- Four records: three named ones (names differing in case) and an unnamed
one. -/
def sampleRecords : List PodmanContainer :=
  [⟨"c1", ["b", "alias"], "nginx", "Up", ⟨100, 200⟩⟩,
    ⟨"c2", ["B"], "redis", "Up", ⟨50, 50⟩⟩,
    ⟨"c3", [], "busybox", "Exited", ⟨7, 1⟩⟩,
    ⟨"c4", ["a"], "alpine", "Up", ⟨60, 40⟩⟩]

/-- Two records with non-negative `int64` sizes; the first one's two sizes add
up to `2 ^ 63`, one more than the largest `int64`. -/
def overflowRecords : List PodmanContainer :=
  [⟨"c1", ["big"], "img", "Up", ⟨2 ^ 63 - 1, 1⟩⟩,
    ⟨"c2", ["small"], "img", "Up", ⟨1, 0⟩⟩]

/-- A record as the decoder can produce it: both sizes are `int64` values. -/
def wellTyped (c : PodmanContainer) : Prop :=
  isInt64 c.Size.RootFsSize ∧ isInt64 c.Size.RwSize

instance (c : PodmanContainer) : Decidable (wellTyped c) := by
  unfold wellTyped; infer_instance

/-- The row that `printTable` writes for the record `c`, given the three
texts `formatSize` returned for it. -/
def isRowOf (c : PodmanContainer) (row : String) : Prop :=
  ∃ rwSize rootSize totalSize : String,
    formatSize c.Size.RwSize = some rwSize ∧
    formatSize c.Size.RootFsSize = some rootSize ∧
    formatSize (wrap64 (c.Size.RwSize + c.Size.RootFsSize)) = some totalSize ∧
    row = tableLine (getContainerName c) c.Image rwSize rootSize totalSize

/-- Exact sum of the read/write sizes of a list of records. -/
def sumRw (records : List PodmanContainer) : Int :=
  (records.map fun c => c.Size.RwSize).sum

/-- Exact sum of the root-filesystem sizes of a list of records. -/
def sumRoot (records : List PodmanContainer) : Int :=
  (records.map fun c => c.Size.RootFsSize).sum

/-- The two chunks `printTable` writes before the rows. -/
def tableHead : List String :=
  [tableLine "NAME" "IMAGE" "RW SIZE" "ROOT SIZE" "TOTAL SIZE",
    String.mk (List.replicate 90 '-') ++ "\n"]

/-- The four chunks of the aggregate block for the three formatted totals. -/
def totalsBlock (rw root combined : String) : List String :=
  ["\nTOTAL:\n", "Read/Write: " ++ rw ++ "\n", "Root FS:    " ++ root ++ "\n",
    "Combined:   " ++ combined ++ "\n"]

/-! ## getContainers -/

/-- The struct `Config` filled by `parseFlags`. -/
structure Config where
  showAll : Bool
  sortBy : String
  outputJSON : Bool
  deriving DecidableEq, Repr

/-- A JSON text after `encoding/json` has read it: `int` is a number written
without fraction and exponent, `real` any other number (kept as written). -/
inductive Json where
  | null
  | bool (b : Bool)
  | int (n : Int)
  | real (literal : String)
  | str (s : String)
  | arr (items : List Json)
  | obj (members : List (String × Json))

/-- The fold of one character that `encoding/json` applies before it compares
an object key with a field name: ASCII letters go to upper case, and the two
other characters whose case orbit holds an ASCII letter (the long s, U+017F,
and the Kelvin sign, U+212A) go to `S` and `K`. -/
def foldRune (c : Char) : Char :=
  if c = '\u017f' then 'S' else if c = '\u212a' then 'K' else c.toUpper

/-- Key folding: a key selects the struct field whose tag has the same fold. -/
def foldName (s : String) : String := String.mk (s.toList.map foldRune)

/-- The error of `json.Unmarshal` for a value that does not fit the Go type it
is decoded into.  Only the fact of the error is modelled: the text of the
library, which names the JSON kind, the field and the Go type, is not. -/
def typeError : String := "json: cannot unmarshal value into Go value"

/-- Decoding of a JSON value into an `int64` field holding `old`: `null`
leaves the field alone, a whole number in range is stored as written, anything
else is an error. -/
def decodeInt64 (v : Json) (old : Int) : Except String Int :=
  match v with
  | .null => .ok old
  | .int n => if isInt64 n then .ok n else .error typeError
  | _ => .error typeError

/-- Decoding of a JSON value into a `string` field holding `old`. -/
def decodeString (v : Json) (old : String) : Except String String :=
  match v with
  | .null => .ok old
  | .str s => .ok s
  | _ => .error typeError

/-- Decoding of the elements of a JSON array into the elements of a `[]string`
holding `old`: element `i` is decoded into the string the slice already has at
`i`, and into the empty string past the length of the slice.  (The library
reuses the storage of the slice, so after a third array for the same key a
`null` can show a string that a second, shorter array had cut off; sizes and
errors do not depend on it.) -/
def decodeStrings : List Json → List String → Except String (List String)
  | [], _ => .ok []
  | v :: vs, old =>
    match decodeString v (old.headD ""), decodeStrings vs old.tail with
    | .ok s, .ok rest => .ok (s :: rest)
    | _, _ => .error typeError

/-- Decoding of a JSON value into the `[]string` field `Names` holding `old`:
`null` gives the nil slice, an array is decoded element by element and sets
the length. -/
def decodeNames (v : Json) (old : List String) : Except String (List String) :=
  match v with
  | .null => .ok []
  | .arr items => decodeStrings items old
  | _ => .error typeError

/-- One member of the JSON object decoded into the `Size` struct; keys that
match no field are skipped. -/
def decodeSizeMember (size : SizeInfo) (m : String × Json) : Except String SizeInfo :=
  if foldName m.1 = foldName "RootFsSize" then
    match decodeInt64 m.2 size.RootFsSize with
    | .ok n => .ok { size with RootFsSize := n }
    | .error e => .error e
  else if foldName m.1 = foldName "RwSize" then
    match decodeInt64 m.2 size.RwSize with
    | .ok n => .ok { size with RwSize := n }
    | .error e => .error e
  else .ok size

/-- The members of a JSON object decoded one after the other into the `Size`
struct. -/
def decodeSizeMembers : List (String × Json) → SizeInfo → Except String SizeInfo
  | [], size => .ok size
  | m :: ms, size =>
    match decodeSizeMember size m with
    | .ok size1 => decodeSizeMembers ms size1
    | .error e => .error e

/-- Decoding of a JSON value into the `Size` struct holding `old`. -/
def decodeSize (v : Json) (old : SizeInfo) : Except String SizeInfo :=
  match v with
  | .null => .ok old
  | .obj members => decodeSizeMembers members old
  | _ => .error typeError

/-- One member of the JSON object decoded into a `PodmanContainer`;
`withStatus` tells whether the struct has the field `Status` (the minimal
variant of the program has none). -/
def decodeMember (withStatus : Bool) (c : PodmanContainer) (m : String × Json) :
    Except String PodmanContainer :=
  if foldName m.1 = foldName "Id" then
    match decodeString m.2 c.ID with
    | .ok s => .ok { c with ID := s }
    | .error e => .error e
  else if foldName m.1 = foldName "Names" then
    match decodeNames m.2 c.Names with
    | .ok names => .ok { c with Names := names }
    | .error e => .error e
  else if foldName m.1 = foldName "Image" then
    match decodeString m.2 c.Image with
    | .ok s => .ok { c with Image := s }
    | .error e => .error e
  else if withStatus = true ∧ foldName m.1 = foldName "Status" then
    match decodeString m.2 c.Status with
    | .ok s => .ok { c with Status := s }
    | .error e => .error e
  else if foldName m.1 = foldName "Size" then
    match decodeSize m.2 c.Size with
    | .ok size => .ok { c with Size := size }
    | .error e => .error e
  else .ok c

/-- The members of a JSON object decoded one after the other into a
`PodmanContainer`. -/
def decodeMembers (withStatus : Bool) :
    List (String × Json) → PodmanContainer → Except String PodmanContainer
  | [], c => .ok c
  | m :: ms, c =>
    match decodeMember withStatus c m with
    | .ok c1 => decodeMembers withStatus ms c1
    | .error e => .error e

/-- The zero value of `PodmanContainer`. -/
def zeroContainer : PodmanContainer := ⟨"", [], "", "", ⟨0, 0⟩⟩

/-- Decoding of one array element into a fresh `PodmanContainer`. -/
def decodeContainer (withStatus : Bool) (v : Json) : Except String PodmanContainer :=
  match v with
  | .null => .ok zeroContainer
  | .obj members => decodeMembers withStatus members zeroContainer
  | _ => .error typeError

/-- Decoding of the elements of a JSON array into a slice of records. -/
def decodeContainers (withStatus : Bool) : List Json → Except String (List PodmanContainer)
  | [] => .ok []
  | v :: vs =>
    match decodeContainer withStatus v, decodeContainers withStatus vs with
    | .ok c, .ok rest => .ok (c :: rest)
    | _, _ => .error typeError

/-- The call `json.Unmarshal(output, &containers)`: `parse` is the reader of
JSON text of `encoding/json` (it fails on text that is not JSON), the rest is
the decoding of the value into `[]PodmanContainer`. -/
def jsonUnmarshal (parse : String → Except String Json) (withStatus : Bool)
    (output : String) : Except String (List PodmanContainer) :=
  match parse output with
  | .error e => .error e
  | .ok .null => .ok []
  | .ok (.arr items) => decodeContainers withStatus items
  | .ok _ => .error typeError

/-- The argument list `args` that `getContainers` builds. -/
def podmanArgs (showAll : Bool) : List String :=
  if showAll then ["ps", "--size", "--format", "json"] ++ ["-a"]
  else ["ps", "--size", "--format", "json"]

/-- The function `getContainers`.  `run name args` stands for
`exec.Command(name, args...).Output()`: the standard output of the command, or
the error of a command that could not be run or exited with a failure. -/
def getContainers (run : String → List String → Except String String)
    (parse : String → Except String Json) (showAll : Bool) :
    Except String (List PodmanContainer) :=
  match run "podman" (podmanArgs showAll) with
  | .error err => .error ("podman command failed: " ++ err)
  | .ok output =>
    match jsonUnmarshal parse true output with
    | .error err => .error ("failed to parse JSON: " ++ err)
    | .ok containers => .ok containers

/-! ## main -/

/-- How a run of the program ends: `exited` after `main` returned (status 0),
`fatal` after `log.Fatalf` (the message goes to standard error, status 1),
`panicked` after a run-time panic.  `stdout` is what was written to standard
output; what a panicking run had written before is not recorded. -/
inductive Outcome where
  | exited (stdout : List String)
  | fatal (stdout : List String) (message : String)
  | panicked
  deriving DecidableEq, Repr

/-- The function `printJSON`; `encode` stands for the indenting encoder of
`encoding/json`, which writes the whole document in one piece or fails. -/
def printJSON (encode : List PodmanContainer → Except String String)
    (containers : List PodmanContainer) : Outcome :=
  match encode containers with
  | .error err => .fatal [] ("Error encoding JSON: " ++ err)
  | .ok document => .exited [document]

/-- The function `main` of `podman_cont_sizes.go`, from the configuration that
`parseFlags` returned. -/
def main
    (sortSlice : (PodmanContainer → PodmanContainer → Bool) →
      List PodmanContainer → List PodmanContainer)
    (run : String → List String → Except String String)
    (parse : String → Except String Json)
    (encode : List PodmanContainer → Except String String)
    (cfg : Config) : Outcome :=
  match getContainers run parse cfg.showAll with
  | .error err => .fatal [] ("Error getting containers: " ++ err)
  | .ok containers =>
    if containers.length = 0 then .exited ["No containers found.\n"]
    else
      if cfg.outputJSON then printJSON encode (sortContainers sortSlice containers cfg.sortBy)
      else
        match printTable (sortContainers sortSlice containers cfg.sortBy) with
        | none => .panicked
        | some out => .exited out

/-! ## The minimal variant (podman_container_sizes.go) -/

/-- The `for _, c := range containers` loop of the minimal variant's `main`,
with the chunks written so far; `c.Names[0]` panics on an empty slice. -/
def minimalReport : List PodmanContainer → List String → Outcome
  | [], out => .exited out
  | c :: cs, out =>
    match c.Names with
    | [] => .panicked
    | name :: _ =>
      match formatSize c.Size.RwSize, formatSize c.Size.RootFsSize with
      | some rwSize, some rootSize =>
        minimalReport cs (out ++ ["Container: " ++ name ++ "\n",
          "  Image: " ++ c.Image ++ "\n",
          "  Read/Write Layer Size: " ++ rwSize ++ "\n",
          "  Root Filesystem Size:  " ++ rootSize ++ "\n", "\n"])
      | _, _ => .panicked

/-- The function `main` of the minimal variant; its record type has no field
`Status`, and its `formatSize` is the same function. -/
def minimalMain (run : String → List String → Except String String)
    (parse : String → Except String Json) : Outcome :=
  match run "podman" ["ps", "--size", "--format", "json"] with
  | .error err => .fatal [] ("Failed to run podman: " ++ err)
  | .ok output =>
    match jsonUnmarshal parse false output with
    | .error err => .fatal [] ("Failed to parse JSON: " ++ err)
    | .ok containers =>
      if containers.length = 0 then .exited ["No running containers found.\n"]
      else minimalReport containers []

/-- A record without names, as decoded from `{"Id":"c7","Image":"pg"}`. -/
def unnamedRecords : List PodmanContainer :=
  [⟨"c7", [], "pg", "", ⟨2048, 512⟩⟩]

/-- The JSON value of the listing `[{"Id":"c7","Names":[],"Image":"pg",
"Size":{"RootFsSize":2048,"RwSize":512}}]`: one container without a name. -/
def unnamedJson : Json :=
  .arr [.obj [("Id", .str "c7"), ("Names", .arr []), ("Image", .str "pg"),
    ("Size", .obj [("RootFsSize", .int 2048), ("RwSize", .int 512)])]]

/-! ## Decimal numerals -/

theorem digitChar_isDigit (d : Nat) (h : d < 10) : (Nat.digitChar d).isDigit = true := by
  interval_cases d <;> decide

theorem toDigitsCore_isDigit (fuel : Nat) : ∀ (n : Nat) (ds : List Char),
    (∀ c ∈ ds, c.isDigit = true) → ∀ c ∈ Nat.toDigitsCore 10 fuel n ds, c.isDigit = true := by
  induction fuel with
  | zero => intro n ds h; simpa [Nat.toDigitsCore] using h
  | succ f ih =>
    intro n ds h
    have hd : ∀ c ∈ Nat.digitChar (n % 10) :: ds, c.isDigit = true := by
      intro c hc
      rcases List.mem_cons.mp hc with rfl | hc
      · exact digitChar_isDigit _ (Nat.mod_lt _ (by decide))
      · exact h c hc
    simp only [Nat.toDigitsCore]
    split
    · exact hd
    · exact ih _ _ hd

theorem repr_isDigit (n : Nat) : ∀ c ∈ (Nat.repr n).toList, c.isDigit = true := by
  intro c hc
  have : c ∈ Nat.toDigitsCore 10 (n + 1) n [] := by
    simpa [Nat.repr, Nat.toDigits, List.asString] using hc
  exact toDigitsCore_isDigit _ _ _ (by simp) c this

theorem repr_digit_length (d : Nat) (h : d < 10) : (Nat.repr d).length = 1 := by
  interval_cases d <;> decide


/-- Claim C1: for every byte count `b` with `0 ≤ b < 1024`, `formatSize b` is the
decimal numeral of `b` followed by a space and the letter `B`; the numeral
consists of decimal digits only, so there is neither a fractional digit nor a
magnitude letter.  In particular `formatSize 0 = "0 B"` and
`formatSize 1023 = "1023 B"`. -/
theorem formatSize_small :
    (∀ b : Int, 0 ≤ b → b < 1024 →
      formatSize b = some (Nat.repr b.toNat ++ " B") ∧
        ∀ c ∈ (Nat.repr b.toNat).toList, c.isDigit = true) ∧
    formatSize 0 = some "0 B" ∧ formatSize 1023 = some "1023 B" := by
  refine ⟨?_, by decide, by decide⟩
  intro b h0 h1
  refine ⟨?_, repr_isDigit _⟩
  obtain ⟨n, rfl⟩ := Int.eq_ofNat_of_zero_le h0
  have hlt : (n : Int) < unit := h1
  have hn : ¬ (n : Int) < 0 := not_lt.mpr h0
  simp [formatSize, hlt, fmtD, if_neg hn]

theorem formatSize_small_witness :
    formatSize 512 = some (Nat.repr (512 : Int).toNat ++ " B") ∧
      ∀ c ∈ (Nat.repr (512 : Int).toNat).toList, c.isDigit = true :=
  formatSize_small.1 512 (by decide) (by decide)

/-! ## The scaling loop -/

theorem wrap64_of_isInt64 (x : Int) (h : isInt64 x) : wrap64 x = x := by
  obtain ⟨h1, h2⟩ := h
  unfold wrap64
  rw [Int.emod_eq_of_lt (by linarith) (by linarith)]
  ring

theorem scaleLoop_spec (j : Nat) : ∀ (fuel : Nat) (n div : Int) (exp : Nat),
    j ≤ fuel → n < 1024 ^ (j + 1) → (j = 0 ∨ 1024 ^ j ≤ n) →
    0 < div → div * 1024 ^ j < 2 ^ 63 →
    scaleLoop fuel n div exp = (div * 1024 ^ j, exp + j) := by
  induction j with
  | zero =>
    intro fuel n div exp _ hn _ _ _
    have hn1 : ¬ n ≥ unit := by simpa [unit] using hn
    cases fuel with
    | zero => simp [scaleLoop]
    | succ f => simp [scaleLoop, hn1]
  | succ j ih =>
    intro fuel n div exp hf hn hlo hd hdiv
    have hlo1 : (1024 : Int) ^ (j + 1) ≤ n := by
      rcases hlo with h | h
      · exact absurd h (Nat.succ_ne_zero j)
      · exact h
    have hp : (0 : Int) < 1024 ^ j := by positivity
    have hn0 : 1024 ≤ n := by
      have : (1024 : Int) ^ (j + 1) = 1024 ^ j * 1024 := pow_succ _ _
      nlinarith
    have hn1 : n ≥ unit := hn0
    obtain ⟨f, rfl⟩ : ∃ f, fuel = f + 1 := ⟨fuel - 1, by omega⟩
    have hw : wrap64 (div * unit) = div * 1024 := by
      apply wrap64_of_isInt64
      have : (1024 : Int) ^ (j + 1) = 1024 ^ j * 1024 := pow_succ _ _
      constructor
      · show -2 ^ 63 ≤ div * 1024
        nlinarith
      · show div * 1024 < 2 ^ 63
        nlinarith
    have hq : Int.tdiv n unit = n / 1024 := by
      show Int.tdiv n 1024 = n / 1024
      exact Int.tdiv_eq_ediv (by omega) (by norm_num)
    simp only [scaleLoop, hn1, if_true]
    rw [hw, hq, ih f (n / 1024) (div * 1024) (exp + 1) (by omega)]
    · congr 1
      · rw [pow_succ]; ring
      · omega
    · rw [Int.ediv_lt_iff_lt_mul (by norm_num)]
      calc n < 1024 ^ (j + 1 + 1) := hn
        _ = 1024 ^ (j + 1) * 1024 := pow_succ _ _
    · right
      rw [Int.le_ediv_iff_mul_le (by norm_num)]
      calc (1024 : Int) ^ j * 1024 = 1024 ^ (j + 1) := (pow_succ _ _).symm
        _ ≤ n := hlo1
    · positivity
    · calc div * 1024 * 1024 ^ j = div * 1024 ^ (j + 1) := by rw [pow_succ]; ring
        _ < 2 ^ 63 := hdiv

/-! ## Conversion to float64 and the verb %.1f -/

theorem sigShift_of_lt (fuel m : Nat) (h : m < 2 ^ 53) : sigShift fuel m = 0 := by
  cases fuel with
  | zero => rfl
  | succ f => rw [sigShift, if_pos h]

theorem sigShift_lower (fuel : Nat) : ∀ m : Nat,
    sigShift fuel m = 0 ∨ 2 ^ (52 + sigShift fuel m) ≤ m := by
  induction fuel with
  | zero => intro m; left; rfl
  | succ f ih =>
    intro m
    by_cases h : m < 2 ^ 53
    · left; rw [sigShift, if_pos h]
    · right
      rw [sigShift, if_neg h]
      rcases ih (m / 2) with h0 | h1
      · rw [h0]; norm_num; omega
      · have : 2 ^ (52 + (sigShift f (m / 2) + 1)) = 2 ^ (52 + sigShift f (m / 2)) * 2 := by
          rw [← pow_succ]; rfl
        rw [this]
        omega

theorem roundToEven_zero (m : Nat) : roundToEven m 0 = m := by
  simp [roundToEven, Nat.mod_one]

theorem roundToEven_err (m s : Nat) :
    2 * m ≤ 2 * roundToEven m s + 2 ^ s ∧ 2 * roundToEven m s ≤ 2 * m + 2 ^ s := by
  have hp : 0 < 2 ^ s := by positivity
  have hm : m = m / 2 ^ s * 2 ^ s + m % 2 ^ s := by
    rw [Nat.mul_comm]; exact (Nat.div_add_mod m (2 ^ s)).symm
  have hr : m % 2 ^ s < 2 ^ s := Nat.mod_lt _ hp
  have hs : (m / 2 ^ s + 1) * 2 ^ s = m / 2 ^ s * 2 ^ s + 2 ^ s := by ring
  unfold roundToEven
  simp only []
  generalize m / 2 ^ s * 2 ^ s = a at hm hs
  split_ifs with hc
  · rw [hs]
    rcases hc with hc | ⟨hc, _⟩ <;> omega
  · have h1 : ¬ 2 * (m % 2 ^ s) > 2 ^ s := fun h => hc (Or.inl h)
    omega

theorem sigShift_upper (fuel : Nat) : ∀ m : Nat, m < 2 ^ (53 + fuel) →
    m < 2 ^ (53 + sigShift fuel m) := by
  induction fuel with
  | zero => intro m h; exact h
  | succ f ih =>
    intro m h
    by_cases h53 : m < 2 ^ 53
    · rw [sigShift, if_pos h53]; exact h53
    · rw [sigShift, if_neg h53]
      have e1 : 2 ^ (53 + (f + 1)) = 2 ^ (53 + f) * 2 := by rw [← pow_succ]; rfl
      have e2 : 2 ^ (53 + (sigShift f (m / 2) + 1)) = 2 ^ (53 + sigShift f (m / 2)) * 2 := by
        rw [← pow_succ]; rfl
      have := ih (m / 2) (by omega)
      omega

theorem roundToEven_significand (m s : Nat) (h : m < 2 ^ (53 + s)) :
    ∃ q : Nat, q ≤ 2 ^ 53 ∧ roundToEven m s = q * 2 ^ s := by
  have hq : m / 2 ^ s < 2 ^ 53 := by
    rw [Nat.div_lt_iff_lt_mul (by positivity), ← pow_add]
    exact h
  unfold roundToEven
  simp only []
  split_ifs
  · exact ⟨m / 2 ^ s + 1, hq, rfl⟩
  · exact ⟨m / 2 ^ s, hq.le, rfl⟩

theorem float64OfInt_representable (n : Int) :
    ∃ q s : Nat, q ≤ 2 ^ 53 ∧ float64OfInt n = n.sign * ((q * 2 ^ s : Nat) : Int) := by
  have hlt : n.natAbs < 2 ^ (53 + n.natAbs) :=
    lt_of_lt_of_le (Nat.lt_two_pow n.natAbs) (Nat.pow_le_pow_right (by decide) (by omega))
  obtain ⟨q, hq, e⟩ := roundToEven_significand n.natAbs (sigShift n.natAbs n.natAbs)
    (sigShift_upper _ _ hlt)
  exact ⟨q, sigShift n.natAbs n.natAbs, hq, by rw [float64OfInt, e]⟩

theorem roundTenths_nearest (num den : Nat) (hden : 0 < den) :
    2 * (10 * num) ≤ 2 * (roundTenths num den * den) + den ∧
      2 * (roundTenths num den * den) ≤ 2 * (10 * num) + den ∧
      (2 * (roundTenths num den * den) + den = 2 * (10 * num) ∨
        2 * (roundTenths num den * den) = 2 * (10 * num) + den → roundTenths num den % 2 = 0) := by
  have hm : 10 * num = 10 * num / den * den + 10 * num % den := by
    rw [Nat.mul_comm (10 * num / den)]; exact (Nat.div_add_mod (10 * num) den).symm
  have hr : 10 * num % den < den := Nat.mod_lt _ hden
  have hs : (10 * num / den + 1) * den = 10 * num / den * den + den := by ring
  unfold roundTenths
  simp only []
  generalize 10 * num % den = r at hm hr
  generalize hq : 10 * num / den = q at hm hs
  generalize ha : q * den = a at hm hs
  split_ifs with hc
  · rw [hs]
    rcases hc with hc | ⟨hc, hodd⟩
    · refine ⟨by omega, by omega, ?_⟩
      intro h; omega
    · refine ⟨by omega, by omega, ?_⟩
      intro _; omega
  · have h1 : ¬ 2 * r > den := fun h => hc (Or.inl h)
    have h2 : 2 * r = den → ¬ q % 2 = 1 := fun h h' => hc (Or.inr ⟨h, h'⟩)
    rw [ha]
    refine ⟨by omega, by omega, ?_⟩
    intro h
    have : 2 * r = den := by omega
    have := h2 this
    omega

theorem float64OfInt_nonneg (b : Int) (h : 0 < b) :
    float64OfInt b = (roundToEven b.toNat (sigShift b.toNat b.toNat) : Nat) := by
  obtain ⟨n, rfl⟩ := Int.eq_ofNat_of_zero_le h.le
  have : (n : Int).sign = 1 := Int.sign_eq_one_of_pos h
  simp [float64OfInt, this]

theorem float64OfInt_exact (b : Int) (h0 : 0 < b) (h : b ≤ 2 ^ 53) : float64OfInt b = b := by
  rw [float64OfInt_nonneg b h0]
  obtain ⟨n, rfl⟩ := Int.eq_ofNat_of_zero_le h0.le
  simp only [Int.toNat_ofNat]
  rcases (show n < 2 ^ 53 ∨ n = 2 ^ 53 by omega) with hlt | rfl
  · rw [sigShift_of_lt _ _ hlt, roundToEven_zero]
  · decide

theorem float64OfInt_err (b : Int) (h0 : 0 < b) :
    |float64OfInt b - b| * 2 ^ 53 ≤ b := by
  rw [float64OfInt_nonneg b h0]
  obtain ⟨n, rfl⟩ := Int.eq_ofNat_of_zero_le h0.le
  simp only [Int.toNat_ofNat]
  obtain ⟨e1, e2⟩ := roundToEven_err n (sigShift n n)
  rcases sigShift_lower n n with hz | hl
  · rw [hz, roundToEven_zero]; simp
  · have hpow : 2 ^ (52 + sigShift n n) = 2 ^ 52 * 2 ^ sigShift n n := pow_add _ _ _
    rw [hpow] at hl
    generalize roundToEven n (sigShift n n) = R at e1 e2
    generalize 2 ^ sigShift n n = P at e1 e2 hl
    rcases abs_cases ((R : Int) - n) with ⟨h, _⟩ | ⟨h, _⟩ <;> rw [h] <;> omega

theorem unit_exponent_exists (b : Int) (h1 : 1024 ≤ b) (h2 : b ≤ 2 ^ 63 - 1) :
    ∃ k : Nat, 1 ≤ k ∧ k ≤ 6 ∧ (1024 : Int) ^ k ≤ b ∧ b < 1024 ^ (k + 1) := by
  by_cases c2 : b < 1024 ^ 2
  · exact ⟨1, by norm_num, by norm_num, by simpa using h1, c2⟩
  by_cases c3 : b < 1024 ^ 3
  · exact ⟨2, by norm_num, by norm_num, not_lt.mp c2, c3⟩
  by_cases c4 : b < 1024 ^ 4
  · exact ⟨3, by norm_num, by norm_num, not_lt.mp c3, c4⟩
  by_cases c5 : b < 1024 ^ 5
  · exact ⟨4, by norm_num, by norm_num, not_lt.mp c4, c5⟩
  by_cases c6 : b < 1024 ^ 6
  · exact ⟨5, by norm_num, by norm_num, not_lt.mp c5, c6⟩
  · exact ⟨6, by norm_num, by norm_num, not_lt.mp c6, by norm_num; omega⟩

theorem unit_exponent_unique (b : Int) (j k : Nat)
    (hj1 : (1024 : Int) ^ j ≤ b) (hj2 : b < 1024 ^ (j + 1))
    (hk1 : (1024 : Int) ^ k ≤ b) (hk2 : b < 1024 ^ (k + 1)) : j = k := by
  have mono : ∀ m n : Nat, m ≤ n → (1024 : Int) ^ m ≤ 1024 ^ n :=
    fun m n h => pow_le_pow_right₀ (by norm_num) h
  rcases Nat.lt_trichotomy j k with h | h | h
  · exact absurd (lt_of_lt_of_le hj2 (le_trans (mono _ _ h) hk1)) (lt_irrefl _)
  · exact h
  · exact absurd (lt_of_lt_of_le hk2 (le_trans (mono _ _ h) hj1)) (lt_irrefl _)

theorem formatSize_of_exponent (b : Int) (k : Nat) (c : Char) (hk : 1 ≤ k) (hk6 : k ≤ 6)
    (hlo : (1024 : Int) ^ k ≤ b) (hhi : b < 1024 ^ (k + 1))
    (hc : "KMGTPE".toList[k - 1]? = some c) :
    formatSize b =
      some (fmtF1 (float64OfInt b).toNat (1024 ^ k) ++ " " ++ String.singleton c ++ "B") := by
  obtain ⟨j, rfl⟩ : ∃ j, k = j + 1 := ⟨k - 1, by omega⟩
  have hp : (0 : Int) < 1024 ^ j := by positivity
  have hb : (1024 : Int) ≤ b := by
    have : (1024 : Int) ^ (j + 1) = 1024 ^ j * 1024 := pow_succ _ _
    nlinarith
  have hnlt : ¬ b < unit := not_lt.mpr hb
  have hq : Int.tdiv b unit = b / 1024 := Int.tdiv_eq_ediv (by omega) (by decide)
  have hfuel : j ≤ b.toNat := by
    have : ((j : Nat) : Int) ≤ b := by
      have : (j : Int) ≤ 6 := by omega
      omega
    omega
  have hloop : scaleLoop b.toNat (Int.tdiv b unit) unit 0 = ((1024 : Int) ^ (j + 1), j) := by
    rw [hq, scaleLoop_spec j b.toNat (b / 1024) unit 0 hfuel]
    · congr 1
      · show (1024 : Int) * 1024 ^ j = 1024 ^ (j + 1)
        rw [pow_succ]; ring
      · omega
    · rw [Int.ediv_lt_iff_lt_mul (by norm_num)]
      calc b < 1024 ^ (j + 1 + 1) := hhi
        _ = 1024 ^ (j + 1) * 1024 := pow_succ _ _
    · right
      rw [Int.le_ediv_iff_mul_le (by norm_num)]
      calc (1024 : Int) ^ j * 1024 = 1024 ^ (j + 1) := (pow_succ _ _).symm
        _ ≤ b := hlo
    · show (0 : Int) < 1024
      norm_num
    · show (1024 : Int) * 1024 ^ j < 2 ^ 63
      calc (1024 : Int) * 1024 ^ j = 1024 ^ (j + 1) := by rw [pow_succ]; ring
        _ ≤ 1024 ^ 6 := pow_le_pow_right₀ (by norm_num) hk6
        _ < 2 ^ 63 := by norm_num
  have hden : ((1024 : Int) ^ (j + 1)).toNat = 1024 ^ (j + 1) := by
    have : ((1024 : Int) ^ (j + 1)) = ((1024 ^ (j + 1) : Nat) : Int) := by push_cast; rfl
    rw [this, Int.toNat_ofNat]
  have hc1 : "KMGTPE".toList[j]? = some c := by simpa using hc
  simp only [formatSize, hnlt, if_false, hloop, hc1, hden]

/-- Claim C2, amended: for every byte count `b` with `1024 ≤ b ≤ 2^63 - 1` there is
a unique `k` with `1024^k ≤ b < 1024^(k+1)`, it is at least 1, and
`formatSize b` is a numeral with exactly one fractional digit, a space, the
`k`-th letter of `KMGTPE` and `B`.  The numeral shows `t` tenths, where `t` is
the integer nearest to `10 * float64(b) / 1024^k` (ties to the even one);
`float64(b)` is `b` itself up to `2^53` and differs from `b` by at most
`b / 2^53` above.  In particular `formatSize 1536 = "1.5 KB"` and
`formatSize 1048576 = "1.0 MB"`. -/
theorem formatSize_scaled :
    (∀ b : Int, 1024 ≤ b → b ≤ 2 ^ 63 - 1 →
      ∃ (k t : Nat) (c : Char),
        1 ≤ k ∧ (1024 : Int) ^ k ≤ b ∧ b < 1024 ^ (k + 1) ∧
        (∀ j : Nat, (1024 : Int) ^ j ≤ b → b < 1024 ^ (j + 1) → j = k) ∧
        "KMGTPE".toList[k - 1]? = some c ∧
        formatSize b =
          some (Nat.repr (t / 10) ++ "." ++ Nat.repr (t % 10) ++ " " ++
            String.singleton c ++ "B") ∧
        (Nat.repr (t % 10)).length = 1 ∧
        2 * |10 * float64OfInt b - t * 1024 ^ k| ≤ 1024 ^ k ∧
        (2 * |10 * float64OfInt b - t * 1024 ^ k| = 1024 ^ k → t % 2 = 0) ∧
        (b ≤ 2 ^ 53 → float64OfInt b = b) ∧
        |float64OfInt b - b| * 2 ^ 53 ≤ b) ∧
    formatSize 1536 = some "1.5 KB" ∧ formatSize 1048576 = some "1.0 MB" := by
  refine ⟨?_, by decide, by decide⟩
  intro b h1 h2
  have h0 : 0 < b := by omega
  obtain ⟨k, hk1, hk6, hlo, hhi⟩ := unit_exponent_exists b h1 h2
  have hc : ∃ c, "KMGTPE".toList[k - 1]? = some c := by
    interval_cases k <;> exact ⟨_, rfl⟩
  obtain ⟨c, hc⟩ := hc
  have hF := float64OfInt_nonneg b h0
  generalize hR : roundToEven b.toNat (sigShift b.toNat b.toNat) = R at hF
  have hden : 0 < 1024 ^ k := by positivity
  obtain ⟨n1, n2, n3⟩ := roundTenths_nearest R (1024 ^ k) hden
  refine ⟨k, roundTenths R (1024 ^ k), c, hk1, hlo, hhi,
    fun j hj1 hj2 => unit_exponent_unique b j k hj1 hj2 hlo hhi, hc, ?_,
    repr_digit_length _ (Nat.mod_lt _ (by decide)), ?_, ?_,
    float64OfInt_exact b h0, float64OfInt_err b h0⟩
  · rw [formatSize_of_exponent b k c hk1 hk6 hlo hhi hc, hF]
    simp [fmtF1]
  · rw [hF]
    generalize roundTenths R (1024 ^ k) = t at n1 n2 n3
    have e : ((1024 : Int) ^ k) = ((1024 ^ k : Nat) : Int) := by push_cast; rfl
    rw [e]
    generalize (1024 ^ k : Nat) = d at n1 n2 n3 hden
    generalize hx : t * d = x at n1 n2 n3
    have hx2 : (t : Int) * (d : Int) = (x : Int) := by rw [← hx]; push_cast; rfl
    rw [hx2]
    rcases abs_cases (10 * (R : Int) - x) with ⟨h, _⟩ | ⟨h, _⟩ <;> rw [h] <;> omega
  · rw [hF]
    generalize roundTenths R (1024 ^ k) = t at n1 n2 n3
    have e : ((1024 : Int) ^ k) = ((1024 ^ k : Nat) : Int) := by push_cast; rfl
    rw [e]
    generalize (1024 ^ k : Nat) = d at n1 n2 n3 hden
    generalize hx : t * d = x at n1 n2 n3
    have hx2 : (t : Int) * (d : Int) = (x : Int) := by rw [← hx]; push_cast; rfl
    rw [hx2]
    intro htie
    apply n3
    rcases abs_cases (10 * (R : Int) - x) with ⟨h, _⟩ | ⟨h, _⟩ <;> rw [h] at htie <;> omega

theorem formatSize_scaled_witness :
    ∃ (k t : Nat) (c : Char),
        1 ≤ k ∧ (1024 : Int) ^ k ≤ 1792 ∧ (1792 : Int) < 1024 ^ (k + 1) ∧
        (∀ j : Nat, (1024 : Int) ^ j ≤ 1792 → (1792 : Int) < 1024 ^ (j + 1) → j = k) ∧
        "KMGTPE".toList[k - 1]? = some c ∧
        formatSize 1792 =
          some (Nat.repr (t / 10) ++ "." ++ Nat.repr (t % 10) ++ " " ++
            String.singleton c ++ "B") ∧
        (Nat.repr (t % 10)).length = 1 ∧
        2 * |10 * float64OfInt 1792 - t * 1024 ^ k| ≤ 1024 ^ k ∧
        (2 * |10 * float64OfInt 1792 - t * 1024 ^ k| = 1024 ^ k → t % 2 = 0) ∧
        ((1792 : Int) ≤ 2 ^ 53 → float64OfInt 1792 = 1792) ∧
        |float64OfInt 1792 - 1792| * 2 ^ 53 ≤ 1792 :=
  formatSize_scaled.1 1792 (by decide) (by decide)

set_option maxRecDepth 20000 in
theorem formatSize_above_tie : formatSize 1441151880758558721 = some "1.2 EB" := by
  decide

set_option maxRecDepth 20000 in
theorem formatSize_below_boundary : formatSize 1210567579837189249 = some "1.1 EB" := by
  decide

/-- Claim C2 as first stated fails at `b = 5 * 2^58 + 1`: the byte count lies
between `1024^6` and `2^63 - 1`, the quotient `b / 1024^6` is above 1.25 and so
within 0.05 of 1.3 and not of 1.2, yet `formatSize` prints `1.2 EB`, the
conversion to `float64` having dropped the final 1.  It fails as well at
`b = 1210567579837189249`, where the quotient is below 1.05, so within 0.05 of
1.0 and not of 1.1, and `formatSize` prints `1.1 EB`, the conversion having
rounded `b` up by 127. -/
theorem formatSize_double_rounding :
    (formatSize 1441151880758558721 = some "1.2 EB" ∧
      (1024 : Int) ^ 6 ≤ 1441151880758558721 ∧ (1441151880758558721 : Int) ≤ 2 ^ 63 - 1 ∧
      ¬ 2 * |10 * (1441151880758558721 : Int) - 12 * 1024 ^ 6| ≤ 1024 ^ 6 ∧
      2 * |10 * (1441151880758558721 : Int) - 13 * 1024 ^ 6| ≤ 1024 ^ 6) ∧
    (formatSize 1210567579837189249 = some "1.1 EB" ∧
      (1024 : Int) ^ 6 ≤ 1210567579837189249 ∧ (1210567579837189249 : Int) ≤ 2 ^ 63 - 1 ∧
      ¬ 2 * |10 * (1210567579837189249 : Int) - 11 * 1024 ^ 6| ≤ 1024 ^ 6 ∧
      2 * |10 * (1210567579837189249 : Int) - 10 * 1024 ^ 6| ≤ 1024 ^ 6) := by
  refine ⟨⟨formatSize_above_tie, by norm_num, by norm_num, by norm_num [abs_lt], ?_⟩,
    ⟨formatSize_below_boundary, by norm_num, by norm_num, by norm_num [abs_lt], ?_⟩⟩
  · norm_num [abs_le]
  · norm_num [abs_le]

/-! ## Orderings handed to sort.Slice -/

theorem bytesLess_iff_lex : ∀ a b : List Nat, bytesLess a b = true ↔ List.Lex (· < ·) a b
  | [], [] => by simp [bytesLess]
  | [], _ :: _ => by simp [bytesLess, List.Lex.nil]
  | _ :: _, [] => by simp [bytesLess]
  | x :: as, y :: bs => by
    have ih := bytesLess_iff_lex as bs
    rw [bytesLess]
    by_cases h1 : x < y
    · simp only [h1, if_true, true_iff]
      exact List.Lex.rel h1
    · by_cases h2 : y < x
      · simp only [h1, h2, if_true, if_false, Bool.false_eq_true, false_iff]
        intro h
        cases h with
        | cons _ => exact lt_irrefl _ h2
        | rel h => exact h1 h
      · have hxy : x = y := by omega
        subst hxy
        simp only [h1, if_false, ih]
        exact List.Lex.cons_iff.symm

theorem strictWeakOrder_bytesLess : StrictWeakOrder bytesLess := by
  refine ⟨fun a => ?_, fun a b c h1 h2 => ?_, fun a b c h1 h2 => ?_⟩
  · rw [Bool.eq_false_iff, Ne, bytesLess_iff_lex]
    exact irrefl_of (List.Lex (· < ·)) a
  · rw [bytesLess_iff_lex] at *
    exact IsTrans.trans a b c h1 h2
  · rw [Bool.eq_false_iff, Ne, bytesLess_iff_lex] at *
    intro h
    rcases @IsOrderConnected.conn (List Nat) (List.Lex (· < ·)) _ a b c h with h | h
    · exact h1 h
    · exact h2 h

theorem strictWeakOrder_gt : StrictWeakOrder fun a b : Int => decide (a > b) := by
  refine ⟨fun a => by simp, fun a b c h1 h2 => ?_, fun a b c h1 h2 => ?_⟩
  · simp only [decide_eq_true_eq] at *; omega
  · simp only [decide_eq_false_iff_not] at *; omega

theorem strictWeakOrder_lessBySize : StrictWeakOrder lessBySize :=
  ⟨fun _ => strictWeakOrder_gt.irrefl _, fun _ _ _ => strictWeakOrder_gt.trans _ _ _,
    fun _ _ _ => strictWeakOrder_gt.negTrans _ _ _⟩

theorem strictWeakOrder_lessByRwSize : StrictWeakOrder lessByRwSize :=
  ⟨fun _ => strictWeakOrder_gt.irrefl _, fun _ _ _ => strictWeakOrder_gt.trans _ _ _,
    fun _ _ _ => strictWeakOrder_gt.negTrans _ _ _⟩

theorem strictWeakOrder_lessByName : StrictWeakOrder lessByName :=
  ⟨fun _ => strictWeakOrder_bytesLess.irrefl _, fun _ _ _ => strictWeakOrder_bytesLess.trans _ _ _,
    fun _ _ _ => strictWeakOrder_bytesLess.negTrans _ _ _⟩

/-! ## The insertion sort meets the contract of sort.Slice -/

theorem sinkLeft_perm {α : Type} (less : α → α → Bool) (x : α) :
    ∀ l : List α, (sinkLeft less x l).Perm (x :: l)
  | [] => List.Perm.refl _
  | y :: ys => by
    rw [sinkLeft]
    split
    · exact ((sinkLeft_perm less x ys).cons y).trans (List.Perm.swap x y ys)
    · exact List.Perm.refl _

theorem insertionSortLoop_perm {α : Type} (less : α → α → Bool) :
    ∀ rest done : List α, (insertionSortLoop less done rest).Perm (done.reverse ++ rest)
  | [], done => by simp [insertionSortLoop]
  | x :: rest, done => by
    rw [insertionSortLoop]
    refine (insertionSortLoop_perm less rest (sinkLeft less x done)).trans ?_
    have h1 : (sinkLeft less x done).reverse.Perm (done.reverse ++ [x]) :=
      (List.reverse_perm _).trans
        ((sinkLeft_perm less x done).trans
          (((List.reverse_perm done).symm.cons x).trans
            (List.perm_append_singleton x done.reverse).symm))
    simpa using h1.append_right rest

theorem sinkLeft_sorted {α : Type} {less : α → α → Bool} (h : StrictWeakOrder less) (x : α) :
    ∀ l : List α, l.Pairwise (fun a b => less a b = false) →
      (sinkLeft less x l).Pairwise fun a b => less a b = false
  | [], _ => by simp [sinkLeft]
  | y :: ys, hl => by
    rw [sinkLeft]
    obtain ⟨hy, hys⟩ := List.pairwise_cons.mp hl
    by_cases hxy : less x y = true
    · rw [if_pos hxy]
      refine List.pairwise_cons.mpr ⟨?_, sinkLeft_sorted h x ys hys⟩
      intro z hz
      rcases List.mem_cons.mp ((sinkLeft_perm less x ys).subset hz) with rfl | hz
      · cases hyz : less y z with
        | false => rfl
        | true => have := h.trans _ _ _ hxy hyz; rw [h.irrefl] at this; cases this
      · exact hy z hz
    · rw [if_neg hxy]
      have hxy' : less x y = false := by simpa using hxy
      refine List.pairwise_cons.mpr ⟨?_, hl⟩
      intro z hz
      rcases List.mem_cons.mp hz with rfl | hz
      · exact hxy'
      · exact h.negTrans _ _ _ hxy' (hy z hz)

theorem insertionSortLoop_sorted {α : Type} {less : α → α → Bool} (h : StrictWeakOrder less) :
    ∀ rest done : List α, done.Pairwise (fun a b => less a b = false) →
      (insertionSortLoop less done rest).Pairwise fun a b => less b a = false
  | [], done, hd => by
    rw [insertionSortLoop]
    exact List.pairwise_reverse.mpr hd
  | x :: rest, done, hd => by
    rw [insertionSortLoop]
    exact insertionSortLoop_sorted h rest _ (sinkLeft_sorted h x done hd)

theorem goSortSlice_contract {α : Type} : SortSliceContract (@goSortSlice α) :=
  ⟨fun less xs => by simpa [goSortSlice] using insertionSortLoop_perm less xs [],
    fun _ h xs => insertionSortLoop_sorted h xs [] List.Pairwise.nil⟩

theorem pairwise_at {α : Type} {R : α → α → Prop} {l : List α} (h : l.Pairwise R)
    {i j : Nat} {a b : α} (hij : i < j) (hi : l[i]? = some a) (hj : l[j]? = some b) :
    R a b := by
  obtain ⟨hi1, rfl⟩ := List.getElem?_eq_some.mp hi
  obtain ⟨hj1, rfl⟩ := List.getElem?_eq_some.mp hj
  exact List.pairwise_iff_getElem.mp h i j hi1 hj1 hij

/-! ## Claims on getContainerName and sortContainers -/

/-- Claim C8: `getContainerName` returns the first entry of the names list when
there is one, whatever the later entries are and also when that entry is the
empty string, and returns `<unnamed>` when the list is empty. -/
theorem getContainerName_spec (c : PodmanContainer) :
    (∀ (first : String) (later : List String),
        c.Names = first :: later → getContainerName c = first) ∧
      (c.Names = [] → getContainerName c = "<unnamed>") := by
  refine ⟨fun first later h => ?_, fun h => ?_⟩ <;> simp [getContainerName, h]

theorem getContainerName_spec_witness :
    getContainerName ⟨"4f2a", ["", "web"], "nginx", "Up", ⟨10, 20⟩⟩ = "" ∧
      getContainerName ⟨"4f2a", [], "nginx", "Up", ⟨10, 20⟩⟩ = "<unnamed>" :=
  ⟨(getContainerName_spec ⟨"4f2a", ["", "web"], "nginx", "Up", ⟨10, 20⟩⟩).1 "" ["web"] rfl,
    (getContainerName_spec ⟨"4f2a", [], "nginx", "Up", ⟨10, 20⟩⟩).2 rfl⟩

theorem sortContainers_name_eq (sortSlice : (PodmanContainer → PodmanContainer → Bool) →
    List PodmanContainer → List PodmanContainer) (records : List PodmanContainer) :
    sortContainers sortSlice records "name" = sortSlice lessByName records := by
  have h1 : ¬ "name" = "size" := by decide
  have h2 : ¬ "name" = "rwsize" := by decide
  simp only [sortContainers, h1, h2, if_false]

theorem sortContainers_size_eq (sortSlice : (PodmanContainer → PodmanContainer → Bool) →
    List PodmanContainer → List PodmanContainer) (records : List PodmanContainer) :
    sortContainers sortSlice records "size" = sortSlice lessBySize records := by
  simp only [sortContainers, if_true]

theorem sortContainers_rwsize_eq (sortSlice : (PodmanContainer → PodmanContainer → Bool) →
    List PodmanContainer → List PodmanContainer) (records : List PodmanContainer) :
    sortContainers sortSlice records "rwsize" = sortSlice lessByRwSize records := by
  have h1 : ¬ "rwsize" = "size" := by decide
  simp only [sortContainers, h1, if_false, if_true]

/-- Claim C3: after `sortContainers records "name"`, for every two positions
`i < j` the display name at `i` is byte-wise lexicographically below or equal
to the display name at `j`, for whatever implementation of `sort.Slice` that
meets its contract. -/
theorem sortContainers_name_ascending
    (sortSlice : (PodmanContainer → PodmanContainer → Bool) →
      List PodmanContainer → List PodmanContainer)
    (hS : SortSliceContract sortSlice) (records : List PodmanContainer)
    (i j : Nat) (ci cj : PodmanContainer) (hij : i < j)
    (hi : (sortContainers sortSlice records "name")[i]? = some ci)
    (hj : (sortContainers sortSlice records "name")[j]? = some cj) :
    utf8Bytes (getContainerName ci) = utf8Bytes (getContainerName cj) ∨
      List.Lex (· < ·) (utf8Bytes (getContainerName ci)) (utf8Bytes (getContainerName cj)) := by
  rw [sortContainers_name_eq] at hi hj
  have h := pairwise_at (hS.sorted lessByName strictWeakOrder_lessByName records) hij hi hj
  have h' : ¬ List.Lex (· < ·) (utf8Bytes (getContainerName cj))
      (utf8Bytes (getContainerName ci)) := by
    rw [← bytesLess_iff_lex]
    simpa [lessByName, stringLess] using h
  rcases @IsTrichotomous.trichotomous (List Nat) (List.Lex (· < ·)) _
    (utf8Bytes (getContainerName ci)) (utf8Bytes (getContainerName cj)) with h1 | h1 | h1
  · exact Or.inr h1
  · exact Or.inl h1
  · exact absurd h1 h'

theorem sortContainers_name_ascending_witness :
    (sortContainers goSortSlice sampleRecords "name").map getContainerName =
        ["<unnamed>", "B", "a", "b"] ∧
      (utf8Bytes (getContainerName ⟨"c2", ["B"], "redis", "Up", ⟨50, 50⟩⟩) =
          utf8Bytes (getContainerName ⟨"c4", ["a"], "alpine", "Up", ⟨60, 40⟩⟩) ∨
        List.Lex (· < ·) (utf8Bytes (getContainerName ⟨"c2", ["B"], "redis", "Up", ⟨50, 50⟩⟩))
          (utf8Bytes (getContainerName ⟨"c4", ["a"], "alpine", "Up", ⟨60, 40⟩⟩))) :=
  ⟨by decide,
    sortContainers_name_ascending goSortSlice goSortSlice_contract sampleRecords 1 2 _ _
      (by decide) (by decide) (by decide)⟩

theorem lessBySize_false_iff (ci cj : PodmanContainer) :
    lessBySize cj ci = false ↔
      wrap64 (cj.Size.RootFsSize + cj.Size.RwSize) ≤
        wrap64 (ci.Size.RootFsSize + ci.Size.RwSize) := by
  simp [lessBySize]

theorem descending_unique : ∀ l : List Int, l.Perm [300, 100, 200] →
    l.Pairwise (fun x y => x ≥ y) → l = [300, 200, 100] := by
  intro l hp hs
  have hs2 : List.Sorted (fun x y : Int => x ≥ y) [300, 200, 100] := by
    simp [List.Sorted]
  have hp2 : l.Perm [300, 200, 100] := hp.trans (List.Perm.cons _ (List.Perm.swap _ _ _))
  exact List.eq_of_perm_of_sorted hp2 hs hs2

/-- Claim C4, amended: for records with non-negative sizes whose total
(root-filesystem size plus read/write size) does not exceed `2^63 - 1`, after
`sortContainers records "size"` the totals are in descending order: for
`i < j` the total at `i` is at least the total at `j`.  Three records with
totals 300, 100 and 200 come out with totals `[300, 200, 100]`. -/
theorem sortContainers_size_descending :
    (∀ (sortSlice : (PodmanContainer → PodmanContainer → Bool) →
          List PodmanContainer → List PodmanContainer),
        SortSliceContract sortSlice → ∀ records : List PodmanContainer,
        (∀ c ∈ records, 0 ≤ c.Size.RootFsSize ∧ 0 ≤ c.Size.RwSize ∧
          c.Size.RootFsSize + c.Size.RwSize ≤ 2 ^ 63 - 1) →
        ∀ (i j : Nat) (ci cj : PodmanContainer), i < j →
          (sortContainers sortSlice records "size")[i]? = some ci →
          (sortContainers sortSlice records "size")[j]? = some cj →
          ci.Size.RootFsSize + ci.Size.RwSize ≥ cj.Size.RootFsSize + cj.Size.RwSize) ∧
      (∀ (sortSlice : (PodmanContainer → PodmanContainer → Bool) →
          List PodmanContainer → List PodmanContainer),
        SortSliceContract sortSlice → ∀ a b c : PodmanContainer,
        a.Size.RootFsSize + a.Size.RwSize = 300 →
        b.Size.RootFsSize + b.Size.RwSize = 100 →
        c.Size.RootFsSize + c.Size.RwSize = 200 →
        (sortContainers sortSlice [a, b, c] "size").map
            (fun r => r.Size.RootFsSize + r.Size.RwSize) = [300, 200, 100]) := by
  constructor
  · intro sortSlice hS records hrange i j ci cj hij hi hj
    rw [sortContainers_size_eq] at hi hj
    have h := pairwise_at (hS.sorted lessBySize strictWeakOrder_lessBySize records) hij hi hj
    rw [lessBySize_false_iff] at h
    have hmem : ∀ (k : Nat) (c : PodmanContainer),
        (sortSlice lessBySize records)[k]? = some c → c ∈ records := fun k c hk =>
      (hS.perm lessBySize records).subset (List.getElem?_mem hk)
    obtain ⟨a1, a2, a3⟩ := hrange ci (hmem i ci hi)
    obtain ⟨b1, b2, b3⟩ := hrange cj (hmem j cj hj)
    rw [wrap64_of_isInt64 _ ⟨by omega, by omega⟩, wrap64_of_isInt64 _ ⟨by omega, by omega⟩] at h
    exact h
  · intro sortSlice hS a b c ha hb hc
    rw [sortContainers_size_eq]
    apply descending_unique
    · have := (hS.perm lessBySize [a, b, c]).map (fun r => r.Size.RootFsSize + r.Size.RwSize)
      simpa [ha, hb, hc] using this
    · have hs := hS.sorted lessBySize strictWeakOrder_lessBySize [a, b, c]
      have hin : ∀ r ∈ sortSlice lessBySize [a, b, c],
          wrap64 (r.Size.RootFsSize + r.Size.RwSize) = r.Size.RootFsSize + r.Size.RwSize := by
        intro r hr
        have : r ∈ [a, b, c] := (hS.perm lessBySize [a, b, c]).subset hr
        simp only [List.mem_cons, List.mem_singleton, List.not_mem_nil, or_false] at this
        rcases this with rfl | rfl | rfl
        · rw [ha]; decide
        · rw [hb]; decide
        · rw [hc]; decide
      rw [List.pairwise_map]
      refine List.Pairwise.imp_of_mem ?_ hs
      intro x y hx hy hxy
      rw [lessBySize_false_iff, hin x hx, hin y hy] at hxy
      exact hxy

theorem sortContainers_size_descending_witness :
    ((sortContainers goSortSlice sampleRecords "size").map
        (fun r => r.Size.RootFsSize + r.Size.RwSize) = [300, 100, 100, 8]) ∧
      ((⟨"c1", ["b", "alias"], "nginx", "Up", ⟨100, 200⟩⟩ : PodmanContainer).Size.RootFsSize +
          (⟨"c1", ["b", "alias"], "nginx", "Up", ⟨100, 200⟩⟩ : PodmanContainer).Size.RwSize ≥
        (⟨"c3", [], "busybox", "Exited", ⟨7, 1⟩⟩ : PodmanContainer).Size.RootFsSize +
          (⟨"c3", [], "busybox", "Exited", ⟨7, 1⟩⟩ : PodmanContainer).Size.RwSize) ∧
      ((sortContainers goSortSlice
          [⟨"x", ["x"], "i", "Up", ⟨100, 200⟩⟩, ⟨"y", ["y"], "i", "Up", ⟨100, 0⟩⟩,
            ⟨"z", ["z"], "i", "Up", ⟨0, 200⟩⟩] "size").map
        (fun r => r.Size.RootFsSize + r.Size.RwSize) = [300, 200, 100]) :=
  ⟨by decide,
    sortContainers_size_descending.1 goSortSlice goSortSlice_contract sampleRecords
      (by decide) 0 3 _ _ (by decide) (by decide) (by decide),
    sortContainers_size_descending.2 goSortSlice goSortSlice_contract
      ⟨"x", ["x"], "i", "Up", ⟨100, 200⟩⟩ ⟨"y", ["y"], "i", "Up", ⟨100, 0⟩⟩
      ⟨"z", ["z"], "i", "Up", ⟨0, 200⟩⟩ (by decide) (by decide) (by decide)⟩

/-- Claim C4 as first stated fails on `overflowRecords`: both records have
non-negative `int64` sizes, their totals are `2^63` and `1`, and the record
with total `1` is placed first, because the `int64` sum of the other one wraps
to `-2^63`. -/
theorem sortContainers_size_overflow :
    (∀ c ∈ overflowRecords, 0 ≤ c.Size.RootFsSize ∧ c.Size.RootFsSize < 2 ^ 63 ∧
        0 ≤ c.Size.RwSize ∧ c.Size.RwSize < 2 ^ 63) ∧
      (sortContainers goSortSlice overflowRecords "size").map
          (fun r => r.Size.RootFsSize + r.Size.RwSize) = [1, 2 ^ 63] ∧
      ¬ ((1 : Int) ≥ 2 ^ 63) := by
  refine ⟨by decide, by decide, by decide⟩

theorem overflow_order_forced : ∀ l : List Int, l.Perm [-2 ^ 63, 1] →
    l.Pairwise (fun x y => x ≥ y) → l = [1, -2 ^ 63] := by
  intro l hp hs
  have hs2 : List.Sorted (fun x y : Int => x ≥ y) [1, -2 ^ 63] := by
    simp [List.Sorted]
  exact List.eq_of_perm_of_sorted (hp.trans (List.Perm.swap _ _ _)) hs hs2

theorem sortContainers_size_overflow_any
    (sortSlice : (PodmanContainer → PodmanContainer → Bool) →
      List PodmanContainer → List PodmanContainer)
    (hS : SortSliceContract sortSlice) :
    (sortContainers sortSlice overflowRecords "size").map
      (fun r => r.Size.RootFsSize + r.Size.RwSize) = [1, 2 ^ 63] := by
  rw [sortContainers_size_eq]
  have hp := hS.perm lessBySize overflowRecords
  have hs := hS.sorted lessBySize strictWeakOrder_lessBySize overflowRecords
  have hkey : (sortSlice lessBySize overflowRecords).map
      (fun r => wrap64 (r.Size.RootFsSize + r.Size.RwSize)) = [1, -2 ^ 63] := by
    apply overflow_order_forced
    · have h := hp.map (fun r => wrap64 (r.Size.RootFsSize + r.Size.RwSize))
      have e : overflowRecords.map (fun r => wrap64 (r.Size.RootFsSize + r.Size.RwSize)) =
          [-2 ^ 63, 1] := by decide
      rw [e] at h
      exact h
    · rw [List.pairwise_map]
      refine hs.imp ?_
      intro x y hxy
      rw [lessBySize_false_iff] at hxy
      exact hxy
  have hmem : ∀ r ∈ sortSlice lessBySize overflowRecords, r ∈ overflowRecords :=
    fun r hr => hp.subset hr
  generalize sortSlice lessBySize overflowRecords = l at hkey hmem
  rcases l with _ | ⟨x, _ | ⟨y, _ | ⟨z, t⟩⟩⟩
  · simp at hkey
  · simp at hkey
  · have hx := hmem x (by simp)
    have hy := hmem y (by simp)
    simp only [List.map_cons, List.map_nil, List.cons.injEq, and_true] at hkey
    obtain ⟨kx, ky⟩ := hkey
    simp only [overflowRecords, List.mem_cons, List.mem_singleton, List.not_mem_nil,
      or_false] at hx hy
    rcases hx with rfl | rfl
    · exact absurd kx (by decide)
    · rcases hy with rfl | rfl
      · decide
      · exact absurd ky (by decide)
  · simp at hkey

/-- Claim C5: after `sortContainers records "rwsize"`, for every two positions
`i < j` the read/write size at `i` is at least the one at `j`; the order is
produced by `sort.Slice` from the comparison `lessByRwSize` alone, whose
result does not change when the root-filesystem sizes are replaced. -/
theorem sortContainers_rwsize_descending
    (sortSlice : (PodmanContainer → PodmanContainer → Bool) →
      List PodmanContainer → List PodmanContainer)
    (hS : SortSliceContract sortSlice) (records : List PodmanContainer) :
    (∀ (i j : Nat) (ci cj : PodmanContainer), i < j →
        (sortContainers sortSlice records "rwsize")[i]? = some ci →
        (sortContainers sortSlice records "rwsize")[j]? = some cj →
        ci.Size.RwSize ≥ cj.Size.RwSize) ∧
      sortContainers sortSlice records "rwsize" = sortSlice lessByRwSize records ∧
      ∀ (c d : PodmanContainer) (r s : Int),
        lessByRwSize { c with Size := { c.Size with RootFsSize := r } }
          { d with Size := { d.Size with RootFsSize := s } } = lessByRwSize c d := by
  refine ⟨?_, sortContainers_rwsize_eq sortSlice records, fun c d r s => rfl⟩
  intro i j ci cj hij hi hj
  rw [sortContainers_rwsize_eq] at hi hj
  have h := pairwise_at (hS.sorted lessByRwSize strictWeakOrder_lessByRwSize records) hij hi hj
  simpa [lessByRwSize] using h

theorem sortContainers_rwsize_descending_witness :
    (∀ (i j : Nat) (ci cj : PodmanContainer), i < j →
        (sortContainers goSortSlice sampleRecords "rwsize")[i]? = some ci →
        (sortContainers goSortSlice sampleRecords "rwsize")[j]? = some cj →
        ci.Size.RwSize ≥ cj.Size.RwSize) ∧
      sortContainers goSortSlice sampleRecords "rwsize" = goSortSlice lessByRwSize sampleRecords ∧
      ∀ (c d : PodmanContainer) (r s : Int),
        lessByRwSize { c with Size := { c.Size with RootFsSize := r } }
          { d with Size := { d.Size with RootFsSize := s } } = lessByRwSize c d :=
  sortContainers_rwsize_descending goSortSlice goSortSlice_contract sampleRecords

/-- Claim C9: for every record list and every sort key, the result of
`sortContainers` is a permutation of the input: same length, and every record
(compared field by field) occurs as often as before. -/
theorem sortContainers_perm
    (sortSlice : (PodmanContainer → PodmanContainer → Bool) →
      List PodmanContainer → List PodmanContainer)
    (hS : SortSliceContract sortSlice) (records : List PodmanContainer) (sortBy : String) :
    (sortContainers sortSlice records sortBy).Perm records ∧
      (sortContainers sortSlice records sortBy).length = records.length ∧
      ∀ c : PodmanContainer,
        (sortContainers sortSlice records sortBy).count c = records.count c := by
  have hp : (sortContainers sortSlice records sortBy).Perm records := by
    unfold sortContainers
    split_ifs <;> exact hS.perm _ _
  exact ⟨hp, hp.length_eq, fun c => hp.count_eq c⟩

theorem sortContainers_perm_witness :
    (sortContainers goSortSlice sampleRecords "size").Perm sampleRecords ∧
      (sortContainers goSortSlice sampleRecords "size").length = sampleRecords.length ∧
      ∀ c : PodmanContainer,
        (sortContainers goSortSlice sampleRecords "size").count c = sampleRecords.count c :=
  sortContainers_perm goSortSlice goSortSlice_contract sampleRecords "size"

/-- Claim C10: for every sort key other than `size` and `rwsize`,
`sortContainers` returns what it returns for the key `name`. -/
theorem sortContainers_default
    (sortSlice : (PodmanContainer → PodmanContainer → Bool) →
      List PodmanContainer → List PodmanContainer)
    (records : List PodmanContainer) (sortBy : String)
    (h1 : sortBy ≠ "size") (h2 : sortBy ≠ "rwsize") :
    sortContainers sortSlice records sortBy = sortContainers sortSlice records "name" := by
  rw [sortContainers_name_eq]
  simp only [sortContainers, h1, h2, if_false]

theorem sortContainers_default_witness :
    sortContainers goSortSlice sampleRecords "Size" =
        sortContainers goSortSlice sampleRecords "name" ∧
      sortContainers goSortSlice sampleRecords "" =
        sortContainers goSortSlice sampleRecords "name" ∧
      sortContainers goSortSlice sampleRecords "newest" =
        sortContainers goSortSlice sampleRecords "name" :=
  ⟨sortContainers_default goSortSlice sampleRecords "Size" (by decide) (by decide),
    sortContainers_default goSortSlice sampleRecords "" (by decide) (by decide),
    sortContainers_default goSortSlice sampleRecords "newest" (by decide) (by decide)⟩

/-! ## printTable -/

theorem wrap64_isInt64 (x : Int) : isInt64 (wrap64 x) := by
  unfold isInt64 wrap64
  constructor <;> omega

theorem wrap64_add_left (a b : Int) : wrap64 (wrap64 a + b) = wrap64 (a + b) := by
  unfold wrap64
  omega

theorem wrap64_add_right (a b : Int) : wrap64 (a + wrap64 b) = wrap64 (a + b) := by
  unfold wrap64
  omega

theorem formatSize_total (b : Int) (h : isInt64 b) : ∃ s, formatSize b = some s := by
  by_cases hb : b < 1024
  · have hlt : b < unit := hb
    exact ⟨fmtD b ++ " B", by simp only [formatSize, hlt, if_true]⟩
  · obtain ⟨k, hk1, hk6, hlo, hhi⟩ := unit_exponent_exists b (not_lt.mp hb)
      (by have := h.2; omega)
    have hc : ∃ c, "KMGTPE".toList[k - 1]? = some c := by
      interval_cases k <;> exact ⟨_, rfl⟩
    obtain ⟨c, hc⟩ := hc
    exact ⟨_, formatSize_of_exponent b k c hk1 hk6 hlo hhi hc⟩

theorem printRows_spec : ∀ (cs : List PodmanContainer) (out : List String) (tRw tRoot : Int),
    (∀ c ∈ cs, wellTyped c) → isInt64 tRw → isInt64 tRoot →
    ∃ rows : List String, List.Forall₂ isRowOf cs rows ∧
      printRows cs out tRw tRoot =
        some (out ++ rows, wrap64 (tRw + sumRw cs), wrap64 (tRoot + sumRoot cs))
  | [], out, tRw, tRoot, _, h1, h2 => by
    refine ⟨[], List.Forall₂.nil, ?_⟩
    simp [printRows, sumRw, sumRoot, wrap64_of_isInt64 _ h1, wrap64_of_isInt64 _ h2]
  | c :: cs, out, tRw, tRoot, h, _, _ => by
    obtain ⟨hroot, hrw⟩ := h c (List.mem_cons_self _ _)
    obtain ⟨s1, e1⟩ := formatSize_total _ hrw
    obtain ⟨s2, e2⟩ := formatSize_total _ hroot
    obtain ⟨s3, e3⟩ := formatSize_total _ (wrap64_isInt64 (c.Size.RwSize + c.Size.RootFsSize))
    obtain ⟨rows, hrows, hrec⟩ := printRows_spec cs
      (out ++ [tableLine (getContainerName c) c.Image s1 s2 s3])
      (wrap64 (tRw + c.Size.RwSize)) (wrap64 (tRoot + c.Size.RootFsSize))
      (fun d hd => h d (List.mem_cons_of_mem _ hd)) (wrap64_isInt64 _) (wrap64_isInt64 _)
    refine ⟨tableLine (getContainerName c) c.Image s1 s2 s3 :: rows,
      List.Forall₂.cons ⟨s1, s2, s3, e1, e2, e3, rfl⟩ hrows, ?_⟩
    rw [printRows, e1, e2, e3]
    simp only []
    rw [hrec, wrap64_add_left, wrap64_add_left]
    simp [sumRw, sumRoot, add_assoc]

theorem sumRw_perm {xs ys : List PodmanContainer} (h : xs.Perm ys) : sumRw xs = sumRw ys :=
  (h.map _).sum_eq

theorem sumRoot_perm {xs ys : List PodmanContainer} (h : xs.Perm ys) :
    sumRoot xs = sumRoot ys :=
  (h.map _).sum_eq

theorem printTable_spec (records : List PodmanContainer) (h : ∀ c ∈ records, wellTyped c) :
    ∃ (rows : List String) (rw root combined : String),
      List.Forall₂ isRowOf records rows ∧
      formatSize (wrap64 (sumRw records)) = some rw ∧
      formatSize (wrap64 (sumRoot records)) = some root ∧
      formatSize (wrap64 (sumRw records + sumRoot records)) = some combined ∧
      printTable records = some (tableHead ++ rows ++ totalsBlock rw root combined) := by
  obtain ⟨rows, hrows, hrec⟩ := printRows_spec records tableHead 0 0 h (by decide) (by decide)
  obtain ⟨s1, e1⟩ := formatSize_total _ (wrap64_isInt64 (sumRw records))
  obtain ⟨s2, e2⟩ := formatSize_total _ (wrap64_isInt64 (sumRoot records))
  obtain ⟨s3, e3⟩ := formatSize_total _ (wrap64_isInt64 (sumRw records + sumRoot records))
  refine ⟨rows, s1, s2, s3, hrows, e1, e2, e3, ?_⟩
  simp only [zero_add] at hrec
  have hrec' : printRows records
      [tableLine "NAME" "IMAGE" "RW SIZE" "ROOT SIZE" "TOTAL SIZE",
        String.mk (List.replicate 90 '-') ++ "\n"] 0 0 =
      some (tableHead ++ rows, wrap64 (sumRw records), wrap64 (sumRoot records)) := hrec
  rw [printTable, hrec']
  simp only []
  rw [wrap64_add_left, wrap64_add_right, e1, e2, e3]
  rfl

theorem sum_nonneg_of_forall (l : List Int) (h : ∀ x ∈ l, 0 ≤ x) : 0 ≤ l.sum := by
  induction l with
  | nil => simp
  | cons a t ih =>
    rw [List.sum_cons]
    have h1 := h a (List.mem_cons_self _ _)
    have h2 := ih fun x hx => h x (List.mem_cons_of_mem _ hx)
    omega

/-- Claim C6, amended: for records with non-negative `int64` sizes whose combined
sum of all read/write and root-filesystem sizes does not exceed `2^63 - 1`,
`printTable` writes the table head, one row per record and then the aggregate
block showing `formatSize` of the exact sum of the read/write sizes, of the
exact sum of the root-filesystem sizes, and of the sum of the two. -/
theorem printTable_totals (records : List PodmanContainer)
    (hsz : ∀ c ∈ records, 0 ≤ c.Size.RwSize ∧ c.Size.RwSize < 2 ^ 63 ∧
      0 ≤ c.Size.RootFsSize ∧ c.Size.RootFsSize < 2 ^ 63)
    (hfit : sumRw records + sumRoot records ≤ 2 ^ 63 - 1) :
    ∃ (rows : List String) (rw root combined : String),
      rows.length = records.length ∧
      formatSize (sumRw records) = some rw ∧
      formatSize (sumRoot records) = some root ∧
      formatSize (sumRw records + sumRoot records) = some combined ∧
      printTable records = some (tableHead ++ rows ++ totalsBlock rw root combined) := by
  have hty : ∀ c ∈ records, wellTyped c := fun c hc => by
    obtain ⟨a1, a2, a3, a4⟩ := hsz c hc
    exact ⟨⟨by omega, a4⟩, ⟨by omega, a2⟩⟩
  have hrw : 0 ≤ sumRw records := by
    apply sum_nonneg_of_forall
    intro x hx
    obtain ⟨c, hc, rfl⟩ := List.mem_map.mp hx
    exact (hsz c hc).1
  have hroot : 0 ≤ sumRoot records := by
    apply sum_nonneg_of_forall
    intro x hx
    obtain ⟨c, hc, rfl⟩ := List.mem_map.mp hx
    exact (hsz c hc).2.2.1
  obtain ⟨rows, s1, s2, s3, hrows, e1, e2, e3, hp⟩ := printTable_spec records hty
  rw [wrap64_of_isInt64 _ ⟨by omega, by omega⟩] at e1 e2 e3
  exact ⟨rows, s1, s2, s3, hrows.length_eq.symm, e1, e2, e3, hp⟩

theorem printTable_totals_witness :
    ∃ (rows : List String) (rw root combined : String),
      rows.length = sampleRecords.length ∧
      formatSize (sumRw sampleRecords) = some rw ∧
      formatSize (sumRoot sampleRecords) = some root ∧
      formatSize (sumRw sampleRecords + sumRoot sampleRecords) = some combined ∧
      printTable sampleRecords = some (tableHead ++ rows ++ totalsBlock rw root combined) :=
  printTable_totals sampleRecords (by decide) (by decide)

set_option maxRecDepth 20000 in
/-- Claim C6 as first stated fails on `overflowRecords`: the sizes are
non-negative `int64` values, the exact sum of the root-filesystem sizes is
`2^63`, which `formatSize` would show as `8.0 EB`, and the aggregate block
shows `-9223372036854775808 B` instead. -/
theorem printTable_totals_overflow :
    (∀ c ∈ overflowRecords, 0 ≤ c.Size.RwSize ∧ c.Size.RwSize < 2 ^ 63 ∧
        0 ≤ c.Size.RootFsSize ∧ c.Size.RootFsSize < 2 ^ 63) ∧
      sumRoot overflowRecords = 2 ^ 63 ∧
      formatSize (sumRoot overflowRecords) = some "8.0 EB" ∧
      printTable overflowRecords = some (tableHead ++
        [tableLine "big" "img" "1 B" "8.0 EB" "-9223372036854775808 B",
          tableLine "small" "img" "0 B" "1 B" "1 B"] ++
        totalsBlock "1 B" "-9223372036854775808 B" "-9223372036854775807 B") := by
  refine ⟨by decide, by decide, by decide, by decide⟩

/-- Claim C7: the aggregate block of `printTable` does not depend on the order
of the records: for a list of records with `int64` sizes and any permutation
of it, and in particular for the list reordered by `sortContainers` under any
key, the two outputs end with the same block of total lines. -/
theorem printTable_totals_perm :
    (∀ xs ys : List PodmanContainer, xs.Perm ys → (∀ c ∈ xs, wellTyped c) →
      ∃ (rowsX rowsY : List String) (rw root combined : String),
        rowsX.length = xs.length ∧ rowsY.length = ys.length ∧
        printTable xs = some (tableHead ++ rowsX ++ totalsBlock rw root combined) ∧
        printTable ys = some (tableHead ++ rowsY ++ totalsBlock rw root combined)) ∧
      (∀ (sortSlice : (PodmanContainer → PodmanContainer → Bool) →
          List PodmanContainer → List PodmanContainer),
        SortSliceContract sortSlice →
        ∀ (records : List PodmanContainer) (sortBy : String), (∀ c ∈ records, wellTyped c) →
        ∃ (rowsX rowsY : List String) (rw root combined : String),
          rowsX.length = records.length ∧ rowsY.length = records.length ∧
          printTable records = some (tableHead ++ rowsX ++ totalsBlock rw root combined) ∧
          printTable (sortContainers sortSlice records sortBy) =
            some (tableHead ++ rowsY ++ totalsBlock rw root combined)) := by
  have key : ∀ xs ys : List PodmanContainer, xs.Perm ys → (∀ c ∈ xs, wellTyped c) →
      ∃ (rowsX rowsY : List String) (rw root combined : String),
        rowsX.length = xs.length ∧ rowsY.length = ys.length ∧
        printTable xs = some (tableHead ++ rowsX ++ totalsBlock rw root combined) ∧
        printTable ys = some (tableHead ++ rowsY ++ totalsBlock rw root combined) := by
    intro xs ys hp hx
    have hy : ∀ c ∈ ys, wellTyped c := fun c hc => hx c (hp.symm.subset hc)
    obtain ⟨rowsX, s1, s2, s3, hrx, e1, e2, e3, px⟩ := printTable_spec xs hx
    obtain ⟨rowsY, t1, t2, t3, hry, f1, f2, f3, py⟩ := printTable_spec ys hy
    rw [← sumRw_perm hp, e1] at f1
    rw [← sumRoot_perm hp, e2] at f2
    rw [← sumRw_perm hp, ← sumRoot_perm hp, e3] at f3
    cases f1; cases f2; cases f3
    exact ⟨rowsX, rowsY, s1, s2, s3, hrx.length_eq.symm, hry.length_eq.symm, px, py⟩
  refine ⟨key, ?_⟩
  intro sortSlice hS records sortBy hx
  have hp : (sortContainers sortSlice records sortBy).Perm records := by
    unfold sortContainers
    split_ifs <;> exact hS.perm _ _
  obtain ⟨rowsX, rowsY, s1, s2, s3, h1, h2, h3, h4⟩ := key _ _ hp.symm hx
  exact ⟨rowsX, rowsY, s1, s2, s3, h1, by rw [h2, hp.length_eq], h3, h4⟩

theorem printTable_totals_perm_witness :
    (∃ (rowsX rowsY : List String) (rw root combined : String),
        rowsX.length = sampleRecords.length ∧ rowsY.length = sampleRecords.reverse.length ∧
        printTable sampleRecords = some (tableHead ++ rowsX ++ totalsBlock rw root combined) ∧
        printTable sampleRecords.reverse =
          some (tableHead ++ rowsY ++ totalsBlock rw root combined)) ∧
      ∃ (rowsX rowsY : List String) (rw root combined : String),
        rowsX.length = sampleRecords.length ∧ rowsY.length = sampleRecords.length ∧
        printTable sampleRecords = some (tableHead ++ rowsX ++ totalsBlock rw root combined) ∧
        printTable (sortContainers goSortSlice sampleRecords "rwsize") =
          some (tableHead ++ rowsY ++ totalsBlock rw root combined) :=
  ⟨printTable_totals_perm.1 sampleRecords sampleRecords.reverse
      (List.reverse_perm sampleRecords).symm (by decide),
    printTable_totals_perm.2 goSortSlice goSortSlice_contract sampleRecords "rwsize"
      (by decide)⟩

/-! ## The exponent index and the printed number -/

theorem tdiv_unit_lt (b : Int) (h : b < 1024) : Int.tdiv b unit < 1024 := by
  by_cases h0 : 0 ≤ b
  · rw [show unit = 1024 from rfl, Int.tdiv_eq_zero_of_lt h0 h]; decide
  · have h1 : Int.tdiv b unit = -(Int.tdiv (-b) unit) := by
      rw [← Int.neg_tdiv, neg_neg]
    have h2 : 0 ≤ Int.tdiv (-b) unit := Int.tdiv_nonneg (by omega) (by decide)
    omega

theorem scaleLoop_of_exponent (b : Int) (j fuel : Nat) (hj : j + 1 ≤ 6) (hfuel : j ≤ fuel)
    (hlo : (1024 : Int) ^ (j + 1) ≤ b) (hhi : b < 1024 ^ (j + 1 + 1)) :
    scaleLoop fuel (Int.tdiv b unit) unit 0 = ((1024 : Int) ^ (j + 1), j) := by
  have hp : (0 : Int) < 1024 ^ j := by positivity
  have hb : (1024 : Int) ≤ b := by
    have : (1024 : Int) ^ (j + 1) = 1024 ^ j * 1024 := pow_succ _ _
    nlinarith
  have hq : Int.tdiv b unit = b / 1024 := Int.tdiv_eq_ediv (by omega) (by decide)
  rw [hq, scaleLoop_spec j fuel (b / 1024) unit 0 hfuel]
  · congr 1
    · show (1024 : Int) * 1024 ^ j = 1024 ^ (j + 1)
      rw [pow_succ]; ring
    · omega
  · rw [Int.ediv_lt_iff_lt_mul (by norm_num)]
    calc b < 1024 ^ (j + 1 + 1) := hhi
      _ = 1024 ^ (j + 1) * 1024 := pow_succ _ _
  · right
    rw [Int.le_ediv_iff_mul_le (by norm_num)]
    calc (1024 : Int) ^ j * 1024 = 1024 ^ (j + 1) := (pow_succ _ _).symm
      _ ≤ b := hlo
  · show (0 : Int) < 1024
    norm_num
  · show (1024 : Int) * 1024 ^ j < 2 ^ 63
    calc (1024 : Int) * 1024 ^ j = 1024 ^ (j + 1) := by rw [pow_succ]; ring
      _ ≤ 1024 ^ 6 := pow_le_pow_right₀ (by norm_num) hj
      _ < 2 ^ 63 := by norm_num

/-- Claim C17: for every `int64` byte count `b`, the largest one included, the
loop of `formatSize` stops after at most five rounds, whatever bound of at
least five rounds it is given: it ends with an index `exp` between 0 and 5, at
which `KMGTPE` has a letter, and with the divisor `1024^(exp+1)`, the exact
power, which is at most `1024^6 = 2^60`, so that no `int64` product wrapped;
`formatSize b` returns a text. -/
theorem formatSize_index_in_range (b : Int) (h : isInt64 b) :
    ∃ exp : Nat, exp ≤ 5 ∧
      (∀ fuel : Nat, 5 ≤ fuel →
        scaleLoop fuel (Int.tdiv b unit) unit 0 = ((1024 : Int) ^ (exp + 1), exp)) ∧
      scaleLoop b.toNat (Int.tdiv b unit) unit 0 = ((1024 : Int) ^ (exp + 1), exp) ∧
      (1024 : Int) ^ (exp + 1) ≤ 1024 ^ 6 ∧ (1024 : Int) ^ 6 = 2 ^ 60 ∧
      (∃ c : Char, "KMGTPE".toList[exp]? = some c) ∧
      ∃ s : String, formatSize b = some s := by
  by_cases hb : b < 1024
  · have hn := tdiv_unit_lt b hb
    have hl : ∀ fuel : Nat, scaleLoop fuel (Int.tdiv b unit) unit 0 = ((1024 : Int) ^ (0 + 1), 0) := by
      intro fuel
      rw [scaleLoop_spec 0 fuel _ unit 0 (Nat.zero_le _) (by simpa using hn) (Or.inl rfl)
        (by decide) (by decide)]
      rfl
    exact ⟨0, by decide, fun fuel _ => hl fuel, hl _, by norm_num, by norm_num,
      ⟨'K', rfl⟩, formatSize_total b h⟩
  · obtain ⟨k, hk1, hk6, hlo, hhi⟩ := unit_exponent_exists b (not_lt.mp hb)
      (by have := h.2; omega)
    obtain ⟨j, rfl⟩ : ∃ j, k = j + 1 := ⟨k - 1, by omega⟩
    have hfuel : j ≤ b.toNat := by
      have : (j : Int) ≤ 6 := by omega
      omega
    refine ⟨j, by omega, fun fuel hf => scaleLoop_of_exponent b j fuel hk6 (by omega) hlo hhi,
      scaleLoop_of_exponent b j _ hk6 hfuel hlo hhi,
      pow_le_pow_right₀ (by norm_num) hk6, by norm_num, ?_, formatSize_total b h⟩
    have hj : j < 6 := by omega
    interval_cases j <;> exact ⟨_, rfl⟩

theorem formatSize_index_in_range_witness :
    ∃ exp : Nat, exp ≤ 5 ∧
      (∀ fuel : Nat, 5 ≤ fuel →
        scaleLoop fuel (Int.tdiv (2 ^ 63 - 1) unit) unit 0 = ((1024 : Int) ^ (exp + 1), exp)) ∧
      scaleLoop (2 ^ 63 - 1 : Int).toNat (Int.tdiv (2 ^ 63 - 1) unit) unit 0 =
        ((1024 : Int) ^ (exp + 1), exp) ∧
      (1024 : Int) ^ (exp + 1) ≤ 1024 ^ 6 ∧ (1024 : Int) ^ 6 = 2 ^ 60 ∧
      (∃ c : Char, "KMGTPE".toList[exp]? = some c) ∧
      ∃ s : String, formatSize (2 ^ 63 - 1) = some s :=
  formatSize_index_in_range (2 ^ 63 - 1) (by decide)

theorem roundToEven_between (m s A B : Nat) (hA : 2 ^ s ∣ A) (hB : 2 ^ s ∣ B)
    (h1 : A ≤ m) (h2 : m < B) : A ≤ roundToEven m s ∧ roundToEven m s ≤ B := by
  obtain ⟨a, rfl⟩ := hA
  obtain ⟨c, rfl⟩ := hB
  have hp : 0 < 2 ^ s := by positivity
  have ha : a ≤ m / 2 ^ s := by
    rw [Nat.le_div_iff_mul_le hp, Nat.mul_comm]; exact h1
  have hc : m / 2 ^ s + 1 ≤ c := by
    have : m / 2 ^ s < c := by
      rw [Nat.div_lt_iff_lt_mul hp, Nat.mul_comm]; exact h2
    exact this
  have e1 : 2 ^ s * a ≤ m / 2 ^ s * 2 ^ s := by
    rw [Nat.mul_comm]; exact Nat.mul_le_mul_right _ ha
  have e2 : (m / 2 ^ s + 1) * 2 ^ s ≤ 2 ^ s * c := by
    rw [Nat.mul_comm (2 ^ s) c]; exact Nat.mul_le_mul_right _ hc
  have e3 : m / 2 ^ s * 2 ^ s ≤ (m / 2 ^ s + 1) * 2 ^ s :=
    Nat.mul_le_mul_right _ (Nat.le_succ _)
  unfold roundToEven
  simp only []
  split_ifs
  · exact ⟨le_trans e1 e3, e2⟩
  · exact ⟨e1, le_trans e3 e2⟩

theorem float64OfInt_between (b : Int) (k : Nat)
    (hlo : (1024 : Int) ^ k ≤ b) (hhi : b < 1024 ^ (k + 1)) :
    (1024 : Int) ^ k ≤ float64OfInt b ∧ float64OfInt b ≤ 1024 ^ (k + 1) := by
  have hpos : (0 : Int) < 1024 ^ k := by positivity
  have h0 : 0 < b := lt_of_lt_of_le hpos hlo
  rw [float64OfInt_nonneg b h0]
  obtain ⟨n, rfl⟩ := Int.eq_ofNat_of_zero_le h0.le
  simp only [Int.toNat_ofNat]
  have hlo' : 1024 ^ k ≤ n := by exact_mod_cast hlo
  have hhi' : n < 1024 ^ (k + 1) := by exact_mod_cast hhi
  have key : 1024 ^ k ≤ roundToEven n (sigShift n n) ∧
      roundToEven n (sigShift n n) ≤ 1024 ^ (k + 1) := by
    rcases sigShift_lower n n with hz | hl
    · rw [hz, roundToEven_zero]; exact ⟨hlo', hhi'.le⟩
    · have e1 : (1024 : Nat) ^ k = 2 ^ (10 * k) := by
        rw [show (1024 : Nat) = 2 ^ 10 by norm_num, ← pow_mul]
      have e2 : (1024 : Nat) ^ (k + 1) = 2 ^ (10 * (k + 1)) := by
        rw [show (1024 : Nat) = 2 ^ 10 by norm_num, ← pow_mul]
      have hs : 52 + sigShift n n < 10 * (k + 1) := by
        rw [e2] at hhi'
        exact (Nat.pow_lt_pow_iff_right (by decide)).mp (lt_of_le_of_lt hl hhi')
      apply roundToEven_between _ _ _ _ _ _ hlo' hhi'
      · rw [e1]; exact pow_dvd_pow 2 (by omega)
      · rw [e2]; exact pow_dvd_pow 2 (by omega)
  exact ⟨by exact_mod_cast key.1, by exact_mod_cast key.2⟩

theorem roundTenths_bounds (num den : Nat) (hden : 0 < den) (h1 : den ≤ num)
    (h2 : num ≤ 1024 * den) :
    10 ≤ roundTenths num den ∧ roundTenths num den ≤ 10240 ∧
      (roundTenths num den = 10240 ↔ 20479 * den ≤ 20 * num) := by
  obtain ⟨n1, n2, n3⟩ := roundTenths_nearest num den hden
  generalize roundTenths num den = t at n1 n2 n3
  have hlow : 10 ≤ t := by
    by_contra hc
    have : t * den ≤ 9 * den := Nat.mul_le_mul_right _ (by omega)
    omega
  have hup : t ≤ 10240 := by
    by_contra hc
    have : 10241 * den ≤ t * den := Nat.mul_le_mul_right _ (by omega)
    omega
  refine ⟨hlow, hup, ?_, ?_⟩
  · rintro rfl; omega
  · intro h
    by_contra hc
    have hle : t ≤ 10239 := by omega
    have hm : t * den ≤ 10239 * den := Nat.mul_le_mul_right _ hle
    have heq : 2 * (t * den) + den = 2 * (10 * num) := by omega
    have ht : t = 10239 := by
      by_contra hne
      have : t * den ≤ 10238 * den := Nat.mul_le_mul_right _ (by omega)
      omega
    have := n3 (Or.inl heq)
    omega

/-- Claim C16, amended: for every byte count `b` with `1024 ≤ b ≤ 2^63 - 1`, the
number that `formatSize` prints in front of the unit suffix has `t` tenths
with `10 ≤ t ≤ 10240`: it is at least 1.0 and at most 1024.0.  It is 1024.0
exactly when `float64(b) / 1024^k` is at least 1023.95, `1024^k` being the
divisor; so `formatSize 1048575` is `1024.0 KB`. -/
theorem formatSize_printed_range :
    (∀ b : Int, 1024 ≤ b → b ≤ 2 ^ 63 - 1 →
      ∃ (k t : Nat) (c : Char),
        (1024 : Int) ^ k ≤ b ∧ b < 1024 ^ (k + 1) ∧
        formatSize b =
          some (Nat.repr (t / 10) ++ "." ++ Nat.repr (t % 10) ++ " " ++
            String.singleton c ++ "B") ∧
        10 ≤ t ∧ t ≤ 10240 ∧
        (t = 10240 ↔ 20479 * (1024 : Int) ^ k ≤ 20 * float64OfInt b)) ∧
    formatSize 1048575 = some "1024.0 KB" := by
  refine ⟨?_, by decide⟩
  intro b h1 h2
  have h0 : 0 < b := by omega
  obtain ⟨k, hk1, hk6, hlo, hhi⟩ := unit_exponent_exists b h1 h2
  have hc : ∃ c, "KMGTPE".toList[k - 1]? = some c := by
    interval_cases k <;> exact ⟨_, rfl⟩
  obtain ⟨c, hc⟩ := hc
  obtain ⟨f1, f2⟩ := float64OfInt_between b k hlo hhi
  have hF := float64OfInt_nonneg b h0
  generalize hR : roundToEven b.toNat (sigShift b.toNat b.toNat) = R at hF
  rw [hF] at f1 f2
  have g1 : 1024 ^ k ≤ R := by exact_mod_cast f1
  have g2 : R ≤ 1024 * 1024 ^ k := by
    have : R ≤ 1024 ^ (k + 1) := by exact_mod_cast f2
    rw [pow_succ] at this
    omega
  obtain ⟨b1, b2, b3⟩ := roundTenths_bounds R (1024 ^ k) (by positivity) g1 g2
  refine ⟨k, roundTenths R (1024 ^ k), c, hlo, hhi, ?_, b1, b2, ?_⟩
  · rw [formatSize_of_exponent b k c hk1 hk6 hlo hhi hc, hF]
    simp [fmtF1]
  · rw [b3, hF]
    constructor
    · intro h; exact_mod_cast h
    · intro h; exact_mod_cast h

theorem formatSize_printed_range_witness :
    ∃ (k t : Nat) (c : Char),
        (1024 : Int) ^ k ≤ 1048575 ∧ (1048575 : Int) < 1024 ^ (k + 1) ∧
        formatSize 1048575 =
          some (Nat.repr (t / 10) ++ "." ++ Nat.repr (t % 10) ++ " " ++
            String.singleton c ++ "B") ∧
        10 ≤ t ∧ t ≤ 10240 ∧
        (t = 10240 ↔ 20479 * (1024 : Int) ^ k ≤ 20 * float64OfInt 1048575) :=
  formatSize_printed_range.1 1048575 (by decide) (by decide)

/-- Claim C16 as first stated fails at `b = 1048575`, one less than `1024^2`: the
divisor is 1024, the quotient 1023.999 is rounded to one fractional digit, and
`formatSize` shows `1024.0 KB`. -/
theorem formatSize_shows_1024 :
    (1024 : Int) ≤ 1048575 ∧ (1048575 : Int) ≤ 2 ^ 63 - 1 ∧
      (1024 : Int) ^ 1 ≤ 1048575 ∧ (1048575 : Int) < 1024 ^ 2 ∧
      formatSize 1048575 = some "1024.0 KB" := by
  refine ⟨by decide, by decide, by decide, by decide, by decide⟩

/-! ## Rows of the table -/

theorem forall₂_at {α β : Type} {R : α → β → Prop} {l₁ : List α} {l₂ : List β}
    (h : List.Forall₂ R l₁ l₂) : ∀ (i : Nat) (a : α), l₁[i]? = some a →
    ∃ b, l₂[i]? = some b ∧ R a b := by
  induction h with
  | nil => intro i a h; simp at h
  | @cons x y t₁ t₂ hxy _ ih =>
    intro i a h
    cases i with
    | zero =>
      simp only [List.getElem?_cons_zero, Option.some.injEq] at h
      subst h
      exact ⟨y, by simp, hxy⟩
    | succ n =>
      simp only [List.getElem?_cons_succ] at h ⊢
      exact ih n a h

/-- Claim C13: for every list of records with `int64` sizes, `printTable` writes
the header row with the five column titles, the rule of 90 dashes, then one
row per record, in the order of the list, and then the aggregate block.  Row
`i` is, for record `i`: the display name padded with blanks to 20 characters,
a blank, the image padded to 30, a blank, the text of `formatSize` for the
read/write size padded to 12, a blank, the text for the root-filesystem size
padded to 12, a blank, the text for their `int64` sum (the exact sum whenever
that is an `int64`) and a newline.  There are as many rows as records. -/
theorem printTable_rows (records : List PodmanContainer)
    (h : ∀ c ∈ records, wellTyped c) :
    ∃ (rows : List String) (rw root combined : String),
      printTable records =
        some (["NAME                 IMAGE                          " ++
            "RW SIZE      ROOT SIZE    TOTAL SIZE\n",
          String.mk (List.replicate 90 '-') ++ "\n"] ++ rows ++
          totalsBlock rw root combined) ∧
      rows.length = records.length ∧
      ∀ (i : Nat) (c : PodmanContainer), records[i]? = some c →
        ∃ rwSize rootSize totalSize : String,
          formatSize c.Size.RwSize = some rwSize ∧
          formatSize c.Size.RootFsSize = some rootSize ∧
          formatSize (wrap64 (c.Size.RwSize + c.Size.RootFsSize)) = some totalSize ∧
          (isInt64 (c.Size.RwSize + c.Size.RootFsSize) →
            formatSize (c.Size.RwSize + c.Size.RootFsSize) = some totalSize) ∧
          rows[i]? =
            some ((getContainerName c ++
                String.mk (List.replicate (20 - (getContainerName c).length) ' ')) ++ " " ++
              (c.Image ++ String.mk (List.replicate (30 - c.Image.length) ' ')) ++ " " ++
              (rwSize ++ String.mk (List.replicate (12 - rwSize.length) ' ')) ++ " " ++
              (rootSize ++ String.mk (List.replicate (12 - rootSize.length) ' ')) ++ " " ++
              totalSize ++ "\n") := by
  obtain ⟨rows, s1, s2, s3, hrows, _, _, _, hp⟩ := printTable_spec records h
  have hhead : tableHead = ["NAME                 IMAGE                          " ++
      "RW SIZE      ROOT SIZE    TOTAL SIZE\n", String.mk (List.replicate 90 '-') ++ "\n"] := by
    decide
  refine ⟨rows, s1, s2, s3, by rw [← hhead]; exact hp, hrows.length_eq.symm, ?_⟩
  intro i c hc
  obtain ⟨row, hrow, r1, r2, r3, e1, e2, e3, erow⟩ := forall₂_at hrows i c hc
  refine ⟨r1, r2, r3, e1, e2, e3, ?_, ?_⟩
  · intro hfit
    rw [← wrap64_of_isInt64 _ hfit]
    exact e3
  · rw [hrow, erow]
    rfl

theorem printTable_rows_witness :
    (∃ (rows : List String) (rw root combined : String),
      printTable sampleRecords =
        some (["NAME                 IMAGE                          " ++
            "RW SIZE      ROOT SIZE    TOTAL SIZE\n",
          String.mk (List.replicate 90 '-') ++ "\n"] ++ rows ++
          totalsBlock rw root combined) ∧
      rows.length = sampleRecords.length ∧
      ∀ (i : Nat) (c : PodmanContainer), sampleRecords[i]? = some c →
        ∃ rwSize rootSize totalSize : String,
          formatSize c.Size.RwSize = some rwSize ∧
          formatSize c.Size.RootFsSize = some rootSize ∧
          formatSize (wrap64 (c.Size.RwSize + c.Size.RootFsSize)) = some totalSize ∧
          (isInt64 (c.Size.RwSize + c.Size.RootFsSize) →
            formatSize (c.Size.RwSize + c.Size.RootFsSize) = some totalSize) ∧
          rows[i]? =
            some ((getContainerName c ++
                String.mk (List.replicate (20 - (getContainerName c).length) ' ')) ++ " " ++
              (c.Image ++ String.mk (List.replicate (30 - c.Image.length) ' ')) ++ " " ++
              (rwSize ++ String.mk (List.replicate (12 - rwSize.length) ' ')) ++ " " ++
              (rootSize ++ String.mk (List.replicate (12 - rootSize.length) ' ')) ++ " " ++
              totalSize ++ "\n")) ∧
      printTable sampleRecords = some
        ["NAME                 IMAGE                          " ++
            "RW SIZE      ROOT SIZE    TOTAL SIZE\n",
          "------------------------------------------------------------" ++
            "------------------------------\n",
          "b                    nginx                          " ++
            "200 B        100 B        300 B\n",
          "B                    redis                          " ++
            "50 B         50 B         100 B\n",
          "<unnamed>            busybox                        " ++
            "1 B          7 B          8 B\n",
          "a                    alpine                         " ++
            "40 B         60 B         100 B\n",
          "\nTOTAL:\n", "Read/Write: 291 B\n", "Root FS:    217 B\n", "Combined:   508 B\n"] :=
  ⟨printTable_rows sampleRecords (by decide), by decide⟩

/-! ## getContainers and main -/

/-- Claim C14: the argument list that `getContainers` hands to the external
command is `ps --size --format json`, followed by `-a` when `showAll` is true
and by nothing otherwise: it always holds `--size` and the JSON format
request, and holds `-a` if and only if `showAll` is true.  `podman` with this
list is the only command `getContainers` runs. -/
theorem getContainers_args (showAll : Bool) :
    podmanArgs showAll =
        ["ps", "--size", "--format", "json"] ++ (if showAll then ["-a"] else []) ∧
      "--size" ∈ podmanArgs showAll ∧
      "--format" ∈ podmanArgs showAll ∧ "json" ∈ podmanArgs showAll ∧
      ("-a" ∈ podmanArgs showAll ↔ showAll = true) ∧
      ∀ (run : String → List String → Except String String)
        (parse : String → Except String Json),
        getContainers run parse showAll =
          getContainers
            (fun name args =>
              if name = "podman" ∧ args = podmanArgs showAll then run name args
              else .error "not run")
            parse showAll := by
  refine ⟨?_, ?_, ?_, ?_, ?_, ?_⟩
  · cases showAll <;> rfl
  · cases showAll <;> decide
  · cases showAll <;> decide
  · cases showAll <;> decide
  · cases showAll <;> decide
  · intro run parse
    simp [getContainers]

/-- Claim C11: when the collected record list is empty, the whole output of the
program is the single chunk `No containers found.`, for every sort key, both
output modes, and whatever `sort.Slice` and the JSON encoder would do: neither
is reached, and no header, rule, row, aggregate block or document is
written. -/
theorem main_empty
    (sortSlice : (PodmanContainer → PodmanContainer → Bool) →
      List PodmanContainer → List PodmanContainer)
    (run : String → List String → Except String String)
    (parse : String → Except String Json)
    (encode : List PodmanContainer → Except String String)
    (cfg : Config)
    (h : getContainers run parse cfg.showAll = .ok []) :
    main sortSlice run parse encode cfg = .exited ["No containers found.\n"] := by
  simp [main, h]

theorem main_empty_witness :
    main goSortSlice (fun _ _ => .ok "[]") (fun _ => .ok (.arr []))
        (fun _ => .ok "doc") ⟨false, "size", true⟩ = .exited ["No containers found.\n"] ∧
      main goSortSlice (fun _ _ => .ok "null") (fun _ => .ok .null)
        (fun _ => .error "unsupported") ⟨true, "rwsize", false⟩ =
          .exited ["No containers found.\n"] :=
  ⟨main_empty goSortSlice (fun _ _ => .ok "[]") (fun _ => .ok (.arr []))
      (fun _ => .ok "doc") ⟨false, "size", true⟩ rfl,
    main_empty goSortSlice (fun _ _ => .ok "null") (fun _ => .ok .null)
      (fun _ => .error "unsupported") ⟨true, "rwsize", false⟩ rfl⟩

/-! ## The minimal variant -/

/-- Claim C12: in the minimal variant a record with at least one name is
reported under its display name, the value of `getContainerName`; but a record
whose names list is empty makes the report loop panic at `c.Names[0]`, where
`getContainerName` gives `<unnamed>`.  On the listing `unnamedJson` the minimal
variant panics and the richer one prints the row of `<unnamed>`. -/
theorem minimalReport_unnamed :
    (∀ (c : PodmanContainer) (rest : List PodmanContainer) (out : List String),
        c.Names = [] →
        minimalReport (c :: rest) out = .panicked ∧ getContainerName c = "<unnamed>") ∧
      (∀ (c : PodmanContainer) (rest : List PodmanContainer) (out : List String),
        c.Names ≠ [] → wellTyped c →
        ∃ rwSize rootSize : String,
          formatSize c.Size.RwSize = some rwSize ∧
          formatSize c.Size.RootFsSize = some rootSize ∧
          minimalReport (c :: rest) out =
            minimalReport rest (out ++ ["Container: " ++ getContainerName c ++ "\n",
              "  Image: " ++ c.Image ++ "\n",
              "  Read/Write Layer Size: " ++ rwSize ++ "\n",
              "  Root Filesystem Size:  " ++ rootSize ++ "\n", "\n"])) ∧
      jsonUnmarshal (fun _ => .ok unnamedJson) false "reply" = .ok unnamedRecords ∧
      minimalMain (fun _ _ => .ok "reply") (fun _ => .ok unnamedJson) = .panicked ∧
      main goSortSlice (fun _ _ => .ok "reply") (fun _ => .ok unnamedJson)
          (fun _ => .ok "doc") ⟨false, "name", false⟩ =
        .exited (tableHead ++ [tableLine "<unnamed>" "pg" "512 B" "2.0 KB" "2.5 KB"] ++
          totalsBlock "512 B" "2.0 KB" "2.5 KB") := by
  refine ⟨?_, ?_, by rfl, by decide, by decide⟩
  · intro c rest out h
    simp [minimalReport, getContainerName, h]
  · intro c rest out hne hty
    obtain ⟨s1, e1⟩ := formatSize_total _ hty.2
    obtain ⟨s2, e2⟩ := formatSize_total _ hty.1
    refine ⟨s1, s2, e1, e2, ?_⟩
    cases hn : c.Names with
    | nil => exact absurd hn hne
    | cons name more => simp [minimalReport, getContainerName, hn, e1, e2]

theorem minimalReport_unnamed_witness :
    (minimalReport (⟨"c7", [], "pg", "", ⟨2048, 512⟩⟩ :: sampleRecords) [] = .panicked ∧
        getContainerName ⟨"c7", [], "pg", "", ⟨2048, 512⟩⟩ = "<unnamed>") ∧
      ∃ rwSize rootSize : String,
        formatSize (⟨"c4", ["a"], "alpine", "Up", ⟨60, 40⟩⟩ : PodmanContainer).Size.RwSize =
          some rwSize ∧
        formatSize (⟨"c4", ["a"], "alpine", "Up", ⟨60, 40⟩⟩ : PodmanContainer).Size.RootFsSize =
          some rootSize ∧
        minimalReport [⟨"c4", ["a"], "alpine", "Up", ⟨60, 40⟩⟩] [] =
          minimalReport [] ([] ++ ["Container: " ++
              getContainerName ⟨"c4", ["a"], "alpine", "Up", ⟨60, 40⟩⟩ ++ "\n",
            "  Image: " ++ (⟨"c4", ["a"], "alpine", "Up", ⟨60, 40⟩⟩ : PodmanContainer).Image ++
              "\n",
            "  Read/Write Layer Size: " ++ rwSize ++ "\n",
            "  Root Filesystem Size:  " ++ rootSize ++ "\n", "\n"]) :=
  ⟨minimalReport_unnamed.1 ⟨"c7", [], "pg", "", ⟨2048, 512⟩⟩ sampleRecords [] rfl,
    minimalReport_unnamed.2.1 ⟨"c4", ["a"], "alpine", "Up", ⟨60, 40⟩⟩ [] []
      (by decide) (by decide)⟩

/-! ## Sizes decoded from the runtime's output -/

end PodmanSizes
